import Mathlib

/-!
Verification development for the PostgreSQL metrics adapter
(`ignite/pkg/cosmosmetric/adapter/postgres/postgres.go`).

The adapter has three concerns, and the development is organised around
them:

1. connection-target (URI) construction: `createPostgresURI` builds a
   `postgres://...` string from the adapter configuration via Go's
   `net/url` package.  The relevant parts of `net/url` (percent
   escaping, `url.Values.Encode`, `url.URL.String`, `url.ParseQuery`)
   are embedded at the byte level, since Go strings are byte sequences
   and `net/url` escapes individual UTF-8 bytes;
2. `Save`: an all-or-nothing batched write of transactions and their
   decoded event attributes inside one SQL transaction;
3. `GetLatestHeight`: the `SELECT MAX(height) FROM tx` checkpoint query.

Go strings are modelled as Lean `String` together with their UTF-8 byte
sequence (`strBytes`); all URI construction works on `List Nat` bytes
(every produced byte is ASCII, so the final URI converts back to a
`String` losslessly).
-/

/-! ### UTF-8 bytes of a Go string -/

/-- UTF-8 encoding of a single Unicode code point, as byte values.
Matches Go's per-rune UTF-8 encoding for every valid `Char` code point. -/
def utf8Enc (n : Nat) : List Nat :=
  if n < 128 then [n]
  else if n < 2048 then [192 + n / 64, 128 + n % 64]
  else if n < 65536 then [224 + n / 4096, 128 + n / 64 % 64, 128 + n % 64]
  else [240 + n / 262144, 128 + n / 4096 % 64, 128 + n / 64 % 64, 128 + n % 64]

/-- The UTF-8 bytes of a string; this is how Go stores the string. -/
def strBytes (s : String) : List Nat :=
  s.data.flatMap (fun c => utf8Enc c.toNat)

/-- Decode one UTF-8 sequence: first byte, remaining bytes; yields the
code point and the bytes left over, or `none` on a malformed prefix. -/
def utf8DecOne (b : Nat) (rest : List Nat) : Option (Nat × List Nat) :=
  if b < 128 then some (b, rest)
  else if b < 192 then none
  else if b < 224 then
    match rest with
    | b1 :: r =>
      if 128 ≤ b1 ∧ b1 < 192 then some ((b - 192) * 64 + (b1 - 128), r) else none
    | [] => none
  else if b < 240 then
    match rest with
    | b1 :: b2 :: r =>
      if (128 ≤ b1 ∧ b1 < 192) ∧ (128 ≤ b2 ∧ b2 < 192) then
        some ((b - 224) * 4096 + (b1 - 128) * 64 + (b2 - 128), r)
      else none
    | _ => none
  else if b < 248 then
    match rest with
    | b1 :: b2 :: b3 :: r =>
      if (128 ≤ b1 ∧ b1 < 192) ∧ (128 ≤ b2 ∧ b2 < 192) ∧ (128 ≤ b3 ∧ b3 < 192) then
        some ((b - 240) * 262144 + (b1 - 128) * 4096 + (b2 - 128) * 64 + (b3 - 128), r)
      else none
    | _ => none
  else none

/-- Generic token decoder with explicit fuel: repeatedly apply `step` to
the head byte and the remaining bytes, collecting the decoded values.
One unit of fuel per decoded token; any fuel at least the byte count
suffices for steps that never grow the remainder. -/
def stepDecF (step : Nat → List Nat → Option (Nat × List Nat)) :
    Nat → List Nat → Option (List Nat)
  | _, [] => some []
  | 0, _ :: _ => none
  | fuel + 1, b :: rest =>
    match step b rest with
    | none => none
    | some (n, r) => (stepDecF step fuel r).map (n :: ·)

/-- Run a token decoder to completion (fuel = byte count). -/
def stepDecL (step : Nat → List Nat → Option (Nat × List Nat))
    (bs : List Nat) : Option (List Nat) :=
  stepDecF step bs.length bs

/-- UTF-8 decoding of a byte list into code points; `none` on malformed
input.  Inverse of the encoder on encoder output. -/
def utf8DecL (bs : List Nat) : Option (List Nat) :=
  stepDecL utf8DecOne bs

/-- Rebuild a string from code points (decoder output). -/
def strOfCodes (cs : List Nat) : String :=
  ⟨cs.map Char.ofNat⟩

/-- Decode UTF-8 bytes back into a string. -/
def strDec (bs : List Nat) : Option String :=
  (utf8DecL bs).map strOfCodes

theorem utf8DecOne_length (b : Nat) (rest : List Nat) (n : Nat) (r : List Nat)
    (h : utf8DecOne b rest = some (n, r)) : r.length ≤ rest.length := by
  unfold utf8DecOne at h
  split_ifs at h with h1 h2 h3 h4 h5
  · simp only [Option.some.injEq, Prod.mk.injEq] at h
    rw [← h.2]
  · cases rest with
    | nil => simp at h
    | cons b1 r1 =>
      simp only at h
      split_ifs at h
      simp only [Option.some.injEq, Prod.mk.injEq] at h
      rw [← h.2]
      simp
  · rcases rest with _ | ⟨b1, _ | ⟨b2, r1⟩⟩
    · simp at h
    · simp at h
    · simp only at h
      split_ifs at h
      simp only [Option.some.injEq, Prod.mk.injEq] at h
      rw [← h.2]
      simp
      omega
  · rcases rest with _ | ⟨b1, _ | ⟨b2, _ | ⟨b3, r1⟩⟩⟩
    · simp at h
    · simp at h
    · simp at h
    · simp only at h
      split_ifs at h
      simp only [Option.some.injEq, Prod.mk.injEq] at h
      rw [← h.2]
      simp
      omega

theorem stepDecF_fuel (step : Nat → List Nat → Option (Nat × List Nat))
    (hstep : ∀ b rest n r, step b rest = some (n, r) → r.length ≤ rest.length)
    (f1 : Nat) : ∀ (f2 : Nat) (bs : List Nat),
    bs.length ≤ f1 → bs.length ≤ f2 → stepDecF step f1 bs = stepDecF step f2 bs := by
  induction f1 with
  | zero =>
    intro f2 bs h1 _
    have : bs = [] := List.length_eq_zero.mp (Nat.le_zero.mp h1)
    subst this
    cases f2 <;> rfl
  | succ f1 ih =>
    intro f2 bs h1 h2
    cases bs with
    | nil => cases f2 <;> rfl
    | cons b rest =>
      cases f2 with
      | zero => exact absurd h2 (by simp)
      | succ f2 =>
        simp only [stepDecF]
        cases hdec : step b rest with
        | none => rfl
        | some pr =>
          obtain ⟨n, r⟩ := pr
          have hr : r.length ≤ rest.length := hstep b rest n r hdec
          simp only [List.length_cons] at h1 h2
          dsimp only
          rw [ih f2 r (by omega) (by omega)]

theorem stepDecL_nil (step : Nat → List Nat → Option (Nat × List Nat)) :
    stepDecL step [] = some [] := rfl

theorem stepDecL_cons (step : Nat → List Nat → Option (Nat × List Nat))
    (hstep : ∀ b rest n r, step b rest = some (n, r) → r.length ≤ rest.length)
    (b : Nat) (rest : List Nat) (n : Nat) (r : List Nat)
    (h : step b rest = some (n, r)) :
    stepDecL step (b :: rest) = (stepDecL step r).map (n :: ·) := by
  unfold stepDecL
  simp only [List.length_cons]
  rw [stepDecF]
  rw [h]
  dsimp only
  have hr : r.length ≤ rest.length := hstep b rest n r h
  rw [stepDecF_fuel step hstep rest.length r.length r hr (Nat.le_refl _)]

theorem utf8DecOne_enc (n : Nat) (hn : n < 1114112) (rest : List Nat) :
    ∃ t, utf8Enc n = (utf8Enc n).headI :: t ∧
      utf8DecOne (utf8Enc n).headI (t ++ rest) = some (n, rest) := by
  by_cases h1 : n < 128
  · refine ⟨[], ?_, ?_⟩
    · simp [utf8Enc, h1]
    · simp [utf8Enc, utf8DecOne, h1]
  · by_cases h2 : n < 2048
    · refine ⟨[128 + n % 64], ?_, ?_⟩
      · simp [utf8Enc, h1, h2]
      · simp only [utf8Enc, if_neg h1, if_pos h2, List.headI, List.cons_append,
          List.nil_append, utf8DecOne]
        have c1 : ¬ (192 + n / 64 < 128) := by omega
        have c2 : ¬ (192 + n / 64 < 192) := by omega
        have c3 : 192 + n / 64 < 224 := by omega
        have c4 : 128 ≤ 128 + n % 64 ∧ 128 + n % 64 < 192 := by omega
        simp only [if_neg c1, if_neg c2, if_pos c3, if_pos c4, Option.some.injEq,
          Prod.mk.injEq]
        constructor
        · omega
        · trivial
    · by_cases h3 : n < 65536
      · refine ⟨[128 + n / 64 % 64, 128 + n % 64], ?_, ?_⟩
        · simp [utf8Enc, h1, h2, h3]
        · simp only [utf8Enc, if_neg h1, if_neg h2, if_pos h3, List.headI,
            List.cons_append, List.nil_append, utf8DecOne]
          have c1 : ¬ (224 + n / 4096 < 128) := by omega
          have c2 : ¬ (224 + n / 4096 < 192) := by omega
          have c3 : ¬ (224 + n / 4096 < 224) := by omega
          have c4 : 224 + n / 4096 < 240 := by omega
          have c5 : (128 ≤ 128 + n / 64 % 64 ∧ 128 + n / 64 % 64 < 192) ∧
              (128 ≤ 128 + n % 64 ∧ 128 + n % 64 < 192) := by omega
          simp only [if_neg c1, if_neg c2, if_neg c3, if_pos c4, if_pos c5,
            Option.some.injEq, Prod.mk.injEq]
          constructor
          · omega
          · trivial
      · refine ⟨[128 + n / 4096 % 64, 128 + n / 64 % 64, 128 + n % 64], ?_, ?_⟩
        · simp [utf8Enc, h1, h2, h3]
        · simp only [utf8Enc, if_neg h1, if_neg h2, if_neg h3, List.headI,
            List.cons_append, List.nil_append, utf8DecOne]
          have c1 : ¬ (240 + n / 262144 < 128) := by omega
          have c2 : ¬ (240 + n / 262144 < 192) := by omega
          have c3 : ¬ (240 + n / 262144 < 224) := by omega
          have c4 : ¬ (240 + n / 262144 < 240) := by omega
          have c5 : 240 + n / 262144 < 248 := by omega
          have c6 : (128 ≤ 128 + n / 4096 % 64 ∧ 128 + n / 4096 % 64 < 192) ∧
              (128 ≤ 128 + n / 64 % 64 ∧ 128 + n / 64 % 64 < 192) ∧
              (128 ≤ 128 + n % 64 ∧ 128 + n % 64 < 192) := by omega
          simp only [if_neg c1, if_neg c2, if_neg c3, if_neg c4, if_pos c5, if_pos c6,
            Option.some.injEq, Prod.mk.injEq]
          constructor
          · omega
          · trivial

theorem utf8DecL_utf8Enc (n : Nat) (hn : n < 1114112) (rest : List Nat) :
    utf8DecL (utf8Enc n ++ rest) = (utf8DecL rest).map (n :: ·) := by
  obtain ⟨t, henc, hdec⟩ := utf8DecOne_enc n hn rest
  unfold utf8DecL
  rw [henc, List.cons_append]
  exact stepDecL_cons utf8DecOne utf8DecOne_length _ _ n rest hdec

theorem char_toNat_lt (c : Char) : c.toNat < 1114112 := by
  have h := c.valid
  simp only [UInt32.isValidChar, Nat.isValidChar] at h
  simp only [Char.toNat]
  omega

theorem utf8DecL_strBytes (s : String) :
    utf8DecL (strBytes s) = some (s.data.map Char.toNat) := by
  cases s with
  | mk data =>
    simp only [strBytes]
    induction data with
    | nil => rfl
    | cons c cs ih =>
      simp only [List.flatMap_cons, List.map_cons]
      rw [utf8DecL_utf8Enc c.toNat (char_toNat_lt c), ih]
      rfl

theorem map_ofNat_toNat (cs : List Char) :
    (cs.map Char.toNat).map Char.ofNat = cs := by
  induction cs with
  | nil => rfl
  | cons c cs ih => simp only [List.map_cons, Char.ofNat_toNat, ih]

theorem strDec_strBytes (s : String) : strDec (strBytes s) = some s := by
  simp only [strDec, utf8DecL_strBytes, Option.map_some']
  congr 1
  cases s with
  | mk data =>
    simp only [strOfCodes]
    rw [map_ofNat_toNat]

/-- `strBytes` is injective: two different strings have different bytes. -/
theorem strBytes_inj (s t : String) (h : strBytes s = strBytes t) : s = t := by
  have hs := strDec_strBytes s
  have ht := strDec_strBytes t
  rw [h] at hs
  rw [hs] at ht
  exact Option.some.inj ht

theorem utf8Enc_lt_256 (n : Nat) (hn : n < 1114112) :
    ∀ b ∈ utf8Enc n, b < 256 := by
  intro b hb
  unfold utf8Enc at hb
  split_ifs at hb <;> simp only [List.mem_cons, List.mem_singleton,
    List.not_mem_nil, or_false] at hb <;> omega

theorem strBytes_lt_256 (s : String) : ∀ b ∈ strBytes s, b < 256 := by
  intro b hb
  simp only [strBytes, List.mem_flatMap] at hb
  obtain ⟨c, _, hc⟩ := hb
  exact utf8Enc_lt_256 c.toNat (char_toNat_lt c) b hc

/-! ### Percent escaping (`net/url` `shouldEscape` / `escape` / `unescape`)

Translated from Go's `net/url`, restricted to the four escaping modes
the adapter's URI construction exercises: `encodeHost`, `encodePath`,
`encodeUserPassword` and `encodeQueryComponent`.  Bytes are `Nat`
values below 256. -/

inductive EncMode
  | host
  | path
  | userPassword
  | query
deriving DecidableEq

/-- `shouldEscape(c, mode)` from `net/url`: `true` when the byte must be
percent-encoded in the given mode. -/
def shouldEscape (mode : EncMode) (c : Nat) : Bool :=
  if (97 ≤ c ∧ c ≤ 122) ∨ (65 ≤ c ∧ c ≤ 90) ∨ (48 ≤ c ∧ c ≤ 57) then false
  else if mode = .host ∧ (c = 33 ∨ c = 36 ∨ c = 38 ∨ c = 39 ∨ c = 40 ∨ c = 41 ∨
      c = 42 ∨ c = 43 ∨ c = 44 ∨ c = 59 ∨ c = 61 ∨ c = 58 ∨ c = 91 ∨ c = 93 ∨
      c = 60 ∨ c = 62 ∨ c = 34) then false
  else if c = 45 ∨ c = 95 ∨ c = 46 ∨ c = 126 then false
  else if c = 36 ∨ c = 38 ∨ c = 43 ∨ c = 44 ∨ c = 47 ∨ c = 58 ∨ c = 59 ∨ c = 61 ∨
      c = 63 ∨ c = 64 then
    match mode with
    | .path => c = 63
    | .userPassword => c = 64 ∨ c = 47 ∨ c = 63 ∨ c = 58
    | .query => true
    | .host => true
  else true

/-- Upper-case hexadecimal digit byte for a value below 16
(`"0123456789ABCDEF"[n]` in Go's escape). -/
def hexUpper (n : Nat) : Nat :=
  if n < 10 then 48 + n else 55 + n

/-- Hex digit value accepted by Go's `unhex` (both letter cases). -/
def hexVal (c : Nat) : Option Nat :=
  if 48 ≤ c ∧ c ≤ 57 then some (c - 48)
  else if 97 ≤ c ∧ c ≤ 102 then some (c - 87)
  else if 65 ≤ c ∧ c ≤ 70 then some (c - 55)
  else none

/-- Escape one byte per Go's `escape`: space becomes `+` in query mode,
other escaped bytes become `%XX`, the rest pass through. -/
def escByte (mode : EncMode) (c : Nat) : List Nat :=
  if shouldEscape mode c then
    if c = 32 ∧ mode = .query then [43]
    else [37, hexUpper (c / 16), hexUpper (c % 16)]
  else [c]

/-- Go's `escape` applied to a byte string. -/
def escapeBytes (mode : EncMode) (bs : List Nat) : List Nat :=
  bs.flatMap (escByte mode)

/-- One step of Go's `unescape` in `encodeQueryComponent` mode:
`%XX` decodes to a byte, `+` decodes to space, any other byte passes
through; `none` on a malformed `%` sequence. -/
def unescOne (c : Nat) (rest : List Nat) : Option (Nat × List Nat) :=
  if c = 37 then
    match rest with
    | a :: b :: r =>
      match hexVal a, hexVal b with
      | some x, some y => some (16 * x + y, r)
      | _, _ => none
    | _ => none
  else if c = 43 then some (32, rest)
  else some (c, rest)

/-- Go's `unescape` in `encodeQueryComponent` mode (`QueryUnescape`). -/
def unescQ (bs : List Nat) : Option (List Nat) :=
  stepDecL unescOne bs

theorem unescOne_length (b : Nat) (rest : List Nat) (n : Nat) (r : List Nat)
    (h : unescOne b rest = some (n, r)) : r.length ≤ rest.length := by
  unfold unescOne at h
  split_ifs at h with h1 h2
  · rcases rest with _ | ⟨a, _ | ⟨b', r1⟩⟩
    · simp at h
    · simp at h
    · simp only at h
      cases hva : hexVal a with
      | none => rw [hva] at h; cases hvb : hexVal b' <;> rw [hvb] at h <;> simp at h
      | some x =>
        cases hvb : hexVal b' with
        | none => rw [hva, hvb] at h; simp at h
        | some y =>
          rw [hva, hvb] at h
          simp only [Option.some.injEq, Prod.mk.injEq] at h
          rw [← h.2]
          simp
          omega
  · simp only [Option.some.injEq, Prod.mk.injEq] at h
    rw [← h.2]
  · simp only [Option.some.injEq, Prod.mk.injEq] at h
    rw [← h.2]

theorem hexVal_hexUpper (n : Nat) (hn : n < 16) : hexVal (hexUpper n) = some n := by
  unfold hexUpper hexVal
  split_ifs <;> first | (simp only [Option.some.injEq]; omega) | omega

theorem escapeBytes_nil (mode : EncMode) : escapeBytes mode [] = [] := rfl

theorem escapeBytes_cons (mode : EncMode) (c : Nat) (rest : List Nat) :
    escapeBytes mode (c :: rest) = escByte mode c ++ escapeBytes mode rest := by
  simp [escapeBytes]

theorem escapeBytes_append (mode : EncMode) (xs ys : List Nat) :
    escapeBytes mode (xs ++ ys) = escapeBytes mode xs ++ escapeBytes mode ys := by
  simp [escapeBytes]

theorem escByte_noesc (mode : EncMode) (c : Nat) (h : shouldEscape mode c = false) :
    escByte mode c = [c] := by
  unfold escByte
  rw [h]
  simp

theorem escByte_space : escByte .query 32 = [43] := by decide

theorem escByte_pct (mode : EncMode) (c : Nat) (h : shouldEscape mode c = true)
    (h2 : ¬ (c = 32 ∧ mode = .query)) :
    escByte mode c = [37, hexUpper (c / 16), hexUpper (c % 16)] := by
  unfold escByte
  rw [h, if_pos rfl, if_neg h2]

theorem unescQ_nil : unescQ [] = some [] := rfl

theorem unescQ_plus (r : List Nat) : unescQ (43 :: r) = (unescQ r).map (32 :: ·) :=
  stepDecL_cons unescOne unescOne_length 43 r 32 r (by simp [unescOne])

theorem unescQ_pct_ok (a b : Nat) (r : List Nat) (x y : Nat) (ha : hexVal a = some x)
    (hb : hexVal b = some y) :
    unescQ (37 :: a :: b :: r) = (unescQ r).map ((16 * x + y) :: ·) :=
  stepDecL_cons unescOne unescOne_length 37 (a :: b :: r) (16 * x + y) r
    (by simp [unescOne, ha, hb])

theorem unescQ_other (c : Nat) (r : List Nat) (h37 : ¬ c = 37) (h43 : ¬ c = 43) :
    unescQ (c :: r) = (unescQ r).map (c :: ·) :=
  stepDecL_cons unescOne unescOne_length c r c r (by simp [unescOne, h37, h43])

theorem unescQ_escapeBytes (bs : List Nat) (hbs : ∀ b ∈ bs, b < 256) :
    unescQ (escapeBytes .query bs) = some bs := by
  induction bs with
  | nil => rfl
  | cons c rest ih =>
    have hc : c < 256 := hbs c (List.mem_cons_self c rest)
    have hrest : ∀ b ∈ rest, b < 256 := fun b hb => hbs b (List.mem_cons_of_mem c hb)
    rw [escapeBytes_cons]
    by_cases hesc : shouldEscape .query c = true
    · by_cases hsp : c = 32
      · subst hsp
        rw [escByte_space, List.cons_append, List.nil_append, unescQ_plus, ih hrest]
        rfl
      · rw [escByte_pct .query c hesc (by simp [hsp])]
        simp only [List.cons_append, List.nil_append]
        rw [unescQ_pct_ok _ _ _ _ _ (hexVal_hexUpper (c / 16) (by omega))
          (hexVal_hexUpper (c % 16) (by omega)), ih hrest]
        simp only [Option.map_some', Option.some.injEq, List.cons.injEq]
        refine ⟨by omega, ?_⟩
        trivial
    · have hesc' : shouldEscape .query c = false := by
        revert hesc
        cases shouldEscape .query c <;> simp
      rw [escByte_noesc .query c hesc']
      simp only [List.cons_append, List.nil_append]
      have hc37 : ¬ c = 37 := fun h => by subst h; exact absurd (by decide) hesc
      have hc43 : ¬ c = 43 := fun h => by subst h; exact absurd (by decide) hesc
      rw [unescQ_other c _ hc37 hc43, ih hrest]
      rfl

theorem hexUpper_range (n : Nat) :
    (48 ≤ hexUpper n ∧ hexUpper n ≤ 57) ∨ 65 ≤ hexUpper n := by
  unfold hexUpper
  split_ifs <;> omega

theorem not_mem_escapeBytes (mode : EncMode) (T : Nat)
    (hT : shouldEscape mode T = true) (h37 : T ≠ 37) (h43 : T ≠ 43)
    (hhex : ∀ n, hexUpper n ≠ T) (bs : List Nat) : T ∉ escapeBytes mode bs := by
  intro hx
  induction bs with
  | nil => simp [escapeBytes] at hx
  | cons c rest ih =>
    rw [escapeBytes_cons] at hx
    rcases List.mem_append.mp hx with hin | hin
    · unfold escByte at hin
      by_cases hesc : shouldEscape mode c = true
      · rw [if_pos hesc] at hin
        by_cases hsp : c = 32 ∧ mode = .query
        · rw [if_pos hsp] at hin
          simp only [List.mem_singleton] at hin
          exact h43 hin
        · rw [if_neg hsp] at hin
          simp only [List.mem_cons, List.not_mem_nil, or_false] at hin
          rcases hin with h | h | h
          · exact h37 h
          · exact hhex (c / 16) h.symm
          · exact hhex (c % 16) h.symm
      · rw [if_neg hesc] at hin
        simp only [List.mem_singleton] at hin
        subst hin
        exact hesc hT
    · exact ih hin

theorem amp_not_mem_escQ (bs : List Nat) : 38 ∉ escapeBytes .query bs :=
  not_mem_escapeBytes .query 38 (by decide) (by omega) (by omega)
    (fun n => by rcases hexUpper_range n with h | h <;> omega) bs

theorem semi_not_mem_escQ (bs : List Nat) : 59 ∉ escapeBytes .query bs :=
  not_mem_escapeBytes .query 59 (by decide) (by omega) (by omega)
    (fun n => by rcases hexUpper_range n with h | h <;> omega) bs

theorem eq_not_mem_escQ (bs : List Nat) : 61 ∉ escapeBytes .query bs :=
  not_mem_escapeBytes .query 61 (by decide) (by omega) (by omega)
    (fun n => by rcases hexUpper_range n with h | h <;> omega) bs

theorem qmark_not_mem_escapeBytes (mode : EncMode) (bs : List Nat) :
    63 ∉ escapeBytes mode bs :=
  not_mem_escapeBytes mode 63 (by cases mode <;> decide) (by omega) (by omega)
    (fun n => by rcases hexUpper_range n with h | h <;> omega) bs

/-! ### `url.Values.Encode` and `url.ParseQuery` -/

/-- `strings.Cut(s, sep)`: the part before the first separator and the
part after it; when the separator is absent, the whole input and `[]`
(Go additionally returns a found flag; `Save`'s caller ignores it). -/
def cutAt (sep : Nat) : List Nat → List Nat × List Nat
  | [] => ([], [])
  | c :: rest =>
    if c = sep then ([], rest)
    else
      let p := cutAt sep rest
      (c :: p.1, p.2)

theorem cutAt_snd_length (sep : Nat) (l : List Nat) :
    (cutAt sep l).2.length ≤ l.length := by
  induction l with
  | nil => simp [cutAt]
  | cons c rest ih =>
    unfold cutAt
    split_ifs
    · simp
    · simpa using Nat.le_succ_of_le ih

theorem cutAt_snd_length_lt (sep : Nat) (c : Nat) (rest : List Nat) :
    (cutAt sep (c :: rest)).2.length < rest.length + 1 := by
  unfold cutAt
  split_ifs
  · simp
  · simpa using Nat.lt_succ_of_le (cutAt_snd_length sep rest)

theorem cutAt_not_mem (sep : Nat) (l : List Nat) (h : sep ∉ l) :
    cutAt sep l = (l, []) := by
  induction l with
  | nil => rfl
  | cons c rest ih =>
    unfold cutAt
    have hc : ¬ c = sep := fun hh => h (hh ▸ List.mem_cons_self c rest)
    rw [if_neg hc, ih (fun hm => h (List.mem_cons_of_mem c hm))]

theorem cutAt_append (sep : Nat) (p r : List Nat) (h : sep ∉ p) :
    cutAt sep (p ++ sep :: r) = (p, r) := by
  induction p with
  | nil => simp [cutAt]
  | cons c rest ih =>
    simp only [List.cons_append]
    unfold cutAt
    have hc : ¬ c = sep := fun hh => h (hh ▸ List.mem_cons_self c rest)
    rw [if_neg hc, ih (fun hm => h (List.mem_cons_of_mem c hm))]

/-- One list joined from parts with `&` separators, as built by
`url.Values.Encode` (a separator before every part but the first). -/
def joinAmp : List (List Nat) → List Nat
  | [] => []
  | [p] => p
  | p :: ps => p ++ 38 :: joinAmp ps

/-- `url.ParseQuery` with explicit fuel (one unit per `&`-separated
segment).  Splits on `&`, rejects segments containing `;`, skips empty
segments, cuts each segment at the first `=` and query-unescapes the
two halves; `none` models the error return. -/
def parseQF : Nat → List Nat → Option (List (List Nat × List Nat))
  | _, [] => some []
  | 0, _ :: _ => none
  | fuel + 1, c :: r =>
    let kv := cutAt 38 (c :: r)
    match parseQF fuel kv.2 with
    | none => none
    | some ps =>
      if 59 ∈ kv.1 then none
      else if kv.1 = [] then some ps
      else
        let kv2 := cutAt 61 kv.1
        match unescQ kv2.1, unescQ kv2.2 with
        | some k, some v => some ((k, v) :: ps)
        | _, _ => none

/-- `url.ParseQuery` on a byte string, yielding the key/value pairs as
byte strings in encounter order. -/
def parseQPairs (q : List Nat) : Option (List (List Nat × List Nat)) :=
  parseQF q.length q

theorem parseQF_fuel (f1 : Nat) : ∀ (f2 : Nat) (q : List Nat),
    q.length ≤ f1 → q.length ≤ f2 → parseQF f1 q = parseQF f2 q := by
  induction f1 with
  | zero =>
    intro f2 q h1 _
    have : q = [] := List.length_eq_zero.mp (Nat.le_zero.mp h1)
    subst this
    cases f2 <;> rfl
  | succ f1 ih =>
    intro f2 q h1 h2
    cases q with
    | nil => cases f2 <;> rfl
    | cons c r =>
      cases f2 with
      | zero => exact absurd h2 (by simp)
      | succ f2 =>
        simp only [parseQF]
        have hlt : (cutAt 38 (c :: r)).2.length < r.length + 1 :=
          cutAt_snd_length_lt 38 c r
        simp only [List.length_cons] at h1 h2
        rw [ih f2 (cutAt 38 (c :: r)).2 (by omega) (by omega)]

theorem parseQPairs_nil : parseQPairs [] = some [] := rfl

/-- Unfold one `&`-separated segment of `parseQPairs` when the segment
is well formed (the shape `valuesEncode` produces). -/
theorem parseQPairs_step (part rest : List Nat) (k v k' v' : List Nat)
    (ps : List (List Nat × List Nat))
    (hne : part ≠ []) (h38 : 38 ∉ part) (h59 : 59 ∉ part)
    (hcut : cutAt 61 part = (k, v))
    (hk : unescQ k = some k') (hv : unescQ v = some v')
    (hrec : parseQPairs rest = some ps) :
    parseQPairs (part ++ 38 :: rest) = some ((k', v') :: ps) := by
  cases part with
  | nil => exact absurd rfl hne
  | cons c pr =>
    unfold parseQPairs
    simp only [List.cons_append, List.length_cons, List.length_append]
    rw [parseQF]
    have hcut38 : cutAt 38 ((c :: pr) ++ 38 :: rest) = (c :: pr, rest) :=
      cutAt_append 38 (c :: pr) rest h38
    simp only [List.cons_append] at hcut38
    rw [hcut38]
    dsimp only
    rw [parseQF_fuel (pr.length + (rest.length + 1)) rest.length rest
      (by omega) (Nat.le_refl _)]
    rw [show parseQF rest.length rest = parseQPairs rest from rfl, hrec]
    dsimp only
    rw [if_neg h59, if_neg hne, hcut]
    dsimp only
    rw [hk, hv]

/-- Unfold the final `&`-separated segment (no trailing separator). -/
theorem parseQPairs_last (part : List Nat) (k v k' v' : List Nat)
    (hne : part ≠ []) (h38 : 38 ∉ part) (h59 : 59 ∉ part)
    (hcut : cutAt 61 part = (k, v))
    (hk : unescQ k = some k') (hv : unescQ v = some v') :
    parseQPairs part = some [(k', v')] := by
  cases part with
  | nil => exact absurd rfl hne
  | cons c pr =>
    unfold parseQPairs
    simp only [List.length_cons]
    rw [parseQF]
    have hcut38 : cutAt 38 (c :: pr) = (c :: pr, []) :=
      cutAt_not_mem 38 (c :: pr) h38
    rw [hcut38]
    dsimp only
    rw [show parseQF pr.length [] = some [] from by cases pr <;> rfl]
    dsimp only
    rw [if_neg h59, if_neg hne, hcut]
    dsimp only
    rw [hk, hv]

/-- Insertion step of an insertion sort. -/
def insertBy {α : Type} (le : α → α → Bool) (x : α) : List α → List α
  | [] => [x]
  | y :: ys => if le x y then x :: y :: ys else y :: insertBy le x ys

/-- Sort a list by `le`.  Models `sort.Strings` over the key slice in
`url.Values.Encode`: with the unique keys of a Go map the result is the
same strictly ordered key sequence whatever comparison sort Go uses. -/
def sortBy {α : Type} (le : α → α → Bool) : List α → List α
  | [] => []
  | x :: xs => insertBy le x (sortBy le xs)

theorem insertBy_perm {α : Type} (le : α → α → Bool) (x : α) (l : List α) :
    (insertBy le x l).Perm (x :: l) := by
  induction l with
  | nil => exact List.Perm.refl _
  | cons y ys ih =>
    unfold insertBy
    split_ifs
    · exact List.Perm.refl _
    · exact (ih.cons y).trans (List.Perm.swap x y ys)

theorem sortBy_perm {α : Type} (le : α → α → Bool) (l : List α) :
    (sortBy le l).Perm l := by
  induction l with
  | nil => exact List.Perm.refl _
  | cons x xs ih => exact (insertBy_perm le x (sortBy le xs)).trans (ih.cons x)

/-- Bytewise lexicographic order: Go's `<` on strings. -/
def byteLexLe : List Nat → List Nat → Bool
  | [], _ => true
  | _ :: _, [] => false
  | a :: as, b :: bs => if a < b then true else if b < a then false else byteLexLe as bs

/-- Key order used by `url.Values.Encode` (`sort.Strings(keys)`). -/
def keyLe (p q : String × String) : Bool :=
  byteLexLe (strBytes p.1) (strBytes q.1)

/-- One `key=value` segment of the encoded query. -/
def encPart (p : String × String) : List Nat :=
  escapeBytes .query (strBytes p.1) ++ 61 :: escapeBytes .query (strBytes p.2)

/-- `url.Values.Encode` for the `url.Values` the adapter builds from its
parameter map (`query.Set(k, v)` for each map entry, hence exactly one
value per key): sort the keys bytewise, percent-escape keys and values
in query mode, join as `k=v` pairs with `&`. -/
def valuesEncode (ps : List (String × String)) : List Nat :=
  joinAmp ((sortBy keyLe ps).map encPart)

theorem encPart_ne_nil (p : String × String) : encPart p ≠ [] := by
  unfold encPart
  simp

theorem not_mem_encPart (T : Nat) (hT : T ∉ escapeBytes .query (strBytes p.1))
    (hT2 : T ∉ escapeBytes .query (strBytes p.2)) (h61 : T ≠ 61) :
    T ∉ encPart p := by
  unfold encPart
  intro h
  rcases List.mem_append.mp h with h | h
  · exact hT h
  · rcases List.mem_cons.mp h with h | h
    · exact h61 h
    · exact hT2 h

theorem amp_not_mem_encPart (p : String × String) : 38 ∉ encPart p :=
  not_mem_encPart 38 (amp_not_mem_escQ _) (amp_not_mem_escQ _) (by omega)

theorem semi_not_mem_encPart (p : String × String) : 59 ∉ encPart p :=
  not_mem_encPart 59 (semi_not_mem_escQ _) (semi_not_mem_escQ _) (by omega)

theorem qmark_not_mem_encPart (p : String × String) : 63 ∉ encPart p :=
  not_mem_encPart 63 (qmark_not_mem_escapeBytes .query _)
    (qmark_not_mem_escapeBytes .query _) (by omega)

theorem cut61_encPart (p : String × String) :
    cutAt 61 (encPart p) =
      (escapeBytes .query (strBytes p.1), escapeBytes .query (strBytes p.2)) :=
  cutAt_append 61 _ _ (eq_not_mem_escQ _)

theorem unescQ_escQ_str (s : String) :
    unescQ (escapeBytes .query (strBytes s)) = some (strBytes s) :=
  unescQ_escapeBytes _ (strBytes_lt_256 s)

theorem mem_joinAmp (parts : List (List Nat)) (x : Nat) (hx : x ∈ joinAmp parts) :
    x = 38 ∨ ∃ p ∈ parts, x ∈ p := by
  induction parts with
  | nil => simp [joinAmp] at hx
  | cons p ps ih =>
    cases ps with
    | nil =>
      right
      exact ⟨p, List.mem_cons_self _ _, hx⟩
    | cons q m =>
      rw [show joinAmp (p :: q :: m) = p ++ 38 :: joinAmp (q :: m) from rfl] at hx
      rcases List.mem_append.mp hx with h | h
      · exact Or.inr ⟨p, List.mem_cons_self _ _, h⟩
      · rcases List.mem_cons.mp h with h | h
        · exact Or.inl h
        · rcases ih h with h | ⟨r, hr, hxr⟩
          · exact Or.inl h
          · exact Or.inr ⟨r, List.mem_cons_of_mem p hr, hxr⟩

theorem qmark_not_mem_valuesEncode (ps : List (String × String)) :
    63 ∉ valuesEncode ps := by
  intro h
  rcases mem_joinAmp _ 63 h with h | ⟨p, hp, hxp⟩
  · omega
  · obtain ⟨q, _, rfl⟩ := List.mem_map.mp hp
    exact qmark_not_mem_encPart q hxp

theorem parseQPairs_encParts (l : List (String × String)) :
    parseQPairs (joinAmp (l.map encPart)) =
      some (l.map fun p => (strBytes p.1, strBytes p.2)) := by
  induction l with
  | nil => rfl
  | cons p l ih =>
    cases l with
    | nil =>
      rw [show joinAmp ([p].map encPart) = encPart p from rfl]
      exact parseQPairs_last (encPart p) _ _ _ _ (encPart_ne_nil p)
        (amp_not_mem_encPart p) (semi_not_mem_encPart p) (cut61_encPart p)
        (unescQ_escQ_str p.1) (unescQ_escQ_str p.2)
    | cons q m =>
      rw [show joinAmp ((p :: q :: m).map encPart) =
        encPart p ++ 38 :: joinAmp ((q :: m).map encPart) from rfl]
      exact parseQPairs_step (encPart p) _ _ _ _ _ _ (encPart_ne_nil p)
        (amp_not_mem_encPart p) (semi_not_mem_encPart p) (cut61_encPart p)
        (unescQ_escQ_str p.1) (unescQ_escQ_str p.2) ih

/-- Decode one parsed key/value byte pair back to strings. -/
def decPair (p : List Nat × List Nat) : Option (String × String) :=
  match strDec p.1, strDec p.2 with
  | some k, some v => some (k, v)
  | _, _ => none

/-- Decode all parsed pairs back to strings. -/
def decPairs : List (List Nat × List Nat) → Option (List (String × String))
  | [] => some []
  | p :: ps =>
    match decPair p, decPairs ps with
    | some q, some qs => some (q :: qs)
    | _, _ => none

/-- `url.ParseQuery` on the bytes of a Go query string, with the
resulting Go byte strings read back as Unicode strings (the queries the
adapter produces are always valid UTF-8). -/
def parseQueryGo (bs : List Nat) : Option (List (String × String)) :=
  match parseQPairs bs with
  | none => none
  | some bps => decPairs bps

theorem decPairs_strBytes (l : List (String × String)) :
    decPairs (l.map fun p => (strBytes p.1, strBytes p.2)) = some l := by
  induction l with
  | nil => rfl
  | cons p l ih =>
    simp only [List.map_cons, decPairs, decPair, strDec_strBytes]
    rw [ih]

theorem parseQueryGo_valuesEncode (ps : List (String × String)) :
    parseQueryGo (valuesEncode ps) = some (sortBy keyLe ps) := by
  unfold parseQueryGo valuesEncode
  rw [parseQPairs_encParts]
  exact decPairs_strBytes (sortBy keyLe ps)

/-! ### Adapter configuration (`Adapter` struct, options, `NewAdapter`) -/

/-- The connection-relevant fields of the `Adapter` struct
(postgres.go lines 86-93): `host, user, password, database string`,
`port uint`, `params map[string]string`.  The parameter map is `none`
for Go's nil map and an association list (one entry per key, as in a Go
map) otherwise.  The `db *sql.DB` handle lives in the datastore model
below. -/
structure AdapterCfg where
  host : String
  user : String
  password : String
  database : String
  port : Nat
  params : Option (List (String × String))
deriving DecidableEq

/-- The exported configuration options `WithHost`, `WithPort`,
`WithUser`, `WithPassword`, `WithParams` (postgres.go lines 30-63);
each sets exactly one field of the adapter. -/
inductive AdapterOption
  | withHost (host : String)
  | withPort (port : Nat)
  | withUser (user : String)
  | withPassword (password : String)
  | withParams (params : List (String × String))

/-- Application of one option (each `Option` is `func(*Adapter)`). -/
def applyOption (a : AdapterCfg) : AdapterOption → AdapterCfg
  | .withHost h => { a with host := h }
  | .withPort p => { a with port := p }
  | .withUser u => { a with user := u }
  | .withPassword p => { a with password := p }
  | .withParams ps => { a with params := some ps }

def adapterType : String := "postgres"

def defaultPort : Nat := 5432

def defaultHost : String := "127.0.0.1"

/-- The configuration part of `NewAdapter` (postgres.go lines 66-74):
start from the zero-value struct with the default host and port, then
apply the options in order.  Faithful to the source, which never
assigns the `database` argument to the struct, so the `database` field
keeps its Go zero value `""` (the subsequent `sql.Open` only registers
a lazy handle and is part of the datastore model, not of the
configuration). -/
def newAdapter (database : String) (options : List AdapterOption) : AdapterCfg :=
  options.foldl applyOption
    { host := defaultHost, port := defaultPort, user := "", password := "",
      database := "", params := none }

/-! ### `createPostgresURI` via `url.URL.String` -/

/-- Decimal digit bytes of a natural number, accumulator form with
fuel (`fmt.Sprintf("%d", n)`). -/
def natDecGo : Nat → Nat → List Nat → List Nat
  | 0, _, acc => acc
  | fuel + 1, n, acc =>
    if n < 10 then (48 + n) :: acc
    else natDecGo fuel (n / 10) ((48 + n % 10) :: acc)

/-- `fmt.Sprintf("%d", n)` as bytes. -/
def natDec (n : Nat) : List Nat :=
  natDecGo (n + 1) n []

/-- `url.Userinfo`: a username with (`url.UserPassword`) or without
(`url.User`) a password. -/
inductive Userinfo
  | user (name : String)
  | userPassword (name password : String)

/-- `Userinfo.String()`: the username, and the password when set after
a `:`, each escaped in `encodeUserPassword` mode. -/
def userinfoBytes : Userinfo → List Nat
  | .user n => escapeBytes .userPassword (strBytes n)
  | .userPassword n p =>
      escapeBytes .userPassword (strBytes n) ++ 58 :: escapeBytes .userPassword (strBytes p)

/-- The `url.URL` fields `createPostgresURI` populates (`Scheme`,
`Host`, `Path`, `User`, `RawQuery`); all other fields keep their zero
values. -/
structure GoURL where
  scheme : String
  host : String
  path : String
  userinfo : Option Userinfo
  rawQuery : List Nat

/-- `url.URL.String()` for URLs of the shape the adapter builds (zero
`Opaque`, `RawPath`, `ForceQuery`, `Fragment`): write the scheme and
`:`; then, the URL having a scheme, write `//` when a host, path or
userinfo is present, the userinfo and `@` when present, and the
escaped host; then the escaped path, with `/` inserted when the path
is non-empty, does not already start with `/`, and a host is present
(`EscapedPath` returns `*` unchanged for the path `"*"`); finally `?`
and the raw query when non-empty.  (The relative-path `./` special
case cannot trigger with a non-empty scheme and is omitted.) -/
def urlString (u : GoURL) : List Nat :=
  let schemePart : List Nat :=
    if u.scheme ≠ "" then strBytes u.scheme ++ [58] else []
  let auth : List Nat :=
    if u.scheme ≠ "" ∨ u.host ≠ "" ∨ u.userinfo.isSome then
      (if u.host ≠ "" ∨ u.path ≠ "" ∨ u.userinfo.isSome then [47, 47] else []) ++
      (match u.userinfo with
       | some ui => userinfoBytes ui ++ [64]
       | none => []) ++
      (if u.host ≠ "" then escapeBytes .host (strBytes u.host) else [])
    else []
  let path : List Nat :=
    if u.path = "*" then [42] else escapeBytes .path (strBytes u.path)
  let pathPart : List Nat :=
    (if path ≠ [] ∧ path.headI ≠ 47 ∧ u.host ≠ "" then [47] else []) ++ path
  let queryPart : List Nat :=
    if u.rawQuery ≠ [] then 63 :: u.rawQuery else []
  schemePart ++ auth ++ pathPart ++ queryPart

/-- `fmt.Sprintf("%s:%d", a.host, a.port)`, as a string. -/
def hostPortStr (a : AdapterCfg) : String :=
  a.host ++ ":" ++ strOfCodes (natDec a.port)

/-- The `url.URL` value built by `createPostgresURI` (postgres.go lines
165-189): scheme `postgres`, host `host:port`, path = the `database`
field; `Userinfo` attached only when a user is set, with the password
only when additionally non-empty; the encoded extra parameters as the
raw query only when the params map is non-nil. -/
def createPostgresURL (a : AdapterCfg) : GoURL :=
  { scheme := adapterType
    host := hostPortStr a
    path := a.database
    userinfo :=
      if a.user ≠ "" then
        if a.password ≠ "" then some (.userPassword a.user a.password)
        else some (.user a.user)
      else none
    rawQuery :=
      match a.params with
      | some ps => valuesEncode ps
      | none => [] }

/-- `createPostgresURI` output as Go string bytes. -/
def createPostgresURIBytes (a : AdapterCfg) : List Nat :=
  urlString (createPostgresURL a)

/-- `createPostgresURI` (postgres.go lines 165-192).  The produced
bytes are all ASCII, so reading them as characters is lossless. -/
def createPostgresURI (a : AdapterCfg) : String :=
  strOfCodes (createPostgresURIBytes a)

/-! ### The datastore model and `Adapter.Save` -/

/-- The fields of `cosmosclient.TX.Raw` that `Save` reads:
`tx.Raw.Hash.String()`, `tx.Raw.Index`, `tx.Raw.Height`. -/
structure RawTX where
  hash : String
  index : Nat
  height : Int

/-- `cosmosclient.TX` as consumed by `Save`: the raw transaction plus
`tx.BlockTime` (timestamps are opaque to the adapter and modelled as
integers).  The raw event payload is not inspected by the adapter
itself; `cosmosclient.UnmarshallEvents` decodes it, so the decoder is
a parameter of the `save` model. -/
structure TX where
  raw : RawTX
  blockTime : Int

/-- An attribute's `interface{}` value, modelled through the
`encoding/json` boundary: either a serializable value (represented by
its JSON encoding) or a value `json.Marshal` rejects (e.g. a channel
or function value). -/
inductive JSONValue
  | js (encoded : String)
  | unsupported
deriving DecidableEq

/-- `json.Marshal` on an attribute value. -/
def jsonMarshal : JSONValue → Except String String
  | .js s => .ok s
  | .unsupported => .error "json: unsupported type"

/-- A decoded event attribute (`cosmosclient`). -/
structure Attribute where
  key : String
  value : JSONValue
deriving DecidableEq

/-- A decoded event (`cosmosclient`): type plus ordered attributes. -/
structure Event where
  type : String
  attributes : List Attribute
deriving DecidableEq

/-- One row of the `tx` table, in `queryInsertTX` column order
(`hash, index, height, block_time, created_at`). -/
structure TxRow where
  hash : String
  index : Nat
  height : Int
  blockTime : Int
  createdAt : Int
deriving DecidableEq

/-- One row of the `attribute` table, in `queryInsertAttr` column order
(`tx_hash, event_type, event_index, name, value`). -/
structure AttrRow where
  txHash : String
  eventType : String
  eventIndex : Nat
  name : String
  value : String
deriving DecidableEq

/-- The visible (committed) contents of the two tables, rows in
insertion order. -/
structure DBState where
  txRows : List TxRow
  attrRows : List AttrRow
deriving DecidableEq

/-- Failure injection for the `database/sql` boundary: whether
`BeginTx`, each of the two `PrepareContext` calls, each `ExecContext`
call (indexed by per-statement call count) and `Commit` fail.  This
covers driver, network, constraint and context-cancellation errors. -/
structure SqlOracle where
  beginFails : Bool
  prepareTxFails : Bool
  prepareAttrFails : Bool
  execTxFails : Nat → Bool
  execAttrFails : Nat → Bool
  commitFails : Bool

/-- A `SqlOracle` on which every call succeeds. -/
def okOracle : SqlOracle :=
  ⟨false, false, false, fun _ => false, fun _ => false, false⟩

/-- State of the open SQL transaction during one `Save` call: staged
(inserted but uncommitted) rows, per-statement exec-call counters, and
the `time.Now` call counter. -/
structure SaveSt where
  staged : DBState
  txCalls : Nat
  attrCalls : Nat
  clock : Nat

/-- The attribute loop of `Save` (postgres.go lines 139-149): for each
attribute of the event at ordinal `i`, JSON-marshal the value (a
failure aborts), then execute the prepared attribute insert (staging
the row `(hash, event_type, event_index, name, value)` in the open
transaction). -/
def saveAttrs (ora : SqlOracle) (hash ty : String) (i : Nat) :
    List Attribute → SaveSt → Except String SaveSt
  | [], st => .ok st
  | attr :: rest, st =>
    match jsonMarshal attr.value with
    | .error e => .error e
    | .ok v =>
      if ora.execAttrFails st.attrCalls then .error "exec attribute insert"
      else
        saveAttrs ora hash ty i rest
          { st with
            staged := { st.staged with
              attrRows := st.staged.attrRows ++ [⟨hash, ty, i, attr.key, v⟩] }
            attrCalls := st.attrCalls + 1 }

/-- The event loop of `Save` (postgres.go lines 138-150): the loop
index `i` is the event's ordinal position and is what the insert
stores as `event_index`. -/
def saveEvents (ora : SqlOracle) (hash : String) :
    Nat → List Event → SaveSt → Except String SaveSt
  | _, [], st => .ok st
  | i, evt :: rest, st =>
    match saveAttrs ora hash evt.type i evt.attributes st with
    | .error e => .error e
    | .ok st2 => saveEvents ora hash (i + 1) rest st2

/-- The transaction loop of `Save` (postgres.go lines 126-151): for
each transaction, capture `hash` and `createdAt := time.Now().UTC()`
(one clock reading per record), execute the prepared transaction
insert, decode the events through `cosmosclient.UnmarshallEvents`
(a failure aborts the batch), then run the event loop from ordinal 0. -/
def saveTxs (ora : SqlOracle) (dec : TX → Except String (List Event))
    (now : Nat → Int) : List TX → SaveSt → Except String SaveSt
  | [], st => .ok st
  | tx :: rest, st =>
    let hash := tx.raw.hash
    let createdAt := now st.clock
    if ora.execTxFails st.txCalls then .error "exec tx insert"
    else
      let st1 : SaveSt :=
        { staged := { st.staged with
            txRows := st.staged.txRows ++
              [⟨hash, tx.raw.index, tx.raw.height, tx.blockTime, createdAt⟩] }
          txCalls := st.txCalls + 1
          attrCalls := st.attrCalls
          clock := st.clock + 1 }
      match dec tx with
      | .error e => .error e
      | .ok events =>
        match saveEvents ora hash 0 events st1 with
        | .error e => .error e
        | .ok st2 => saveTxs ora dec now rest st2

/-- `Adapter.Save` (postgres.go lines 100-154) over the datastore
model: begin a SQL transaction, prepare the two insert statements, run
the transaction loop staging rows inside the open transaction, and
commit, which alone publishes the staged rows onto the committed
state.  Any failure returns the error without committing
(`defer sqlTx.Rollback()` discards the staged rows).  `dec` is
`cosmosclient.UnmarshallEvents` (an external collaborator), `now k`
the value of the k-th `time.Now().UTC()` call, `clock0` the number of
calls made before this `Save`. -/
def save (ora : SqlOracle) (dec : TX → Except String (List Event))
    (now : Nat → Int) (db : DBState) (txs : List TX) (clock0 : Nat) :
    Except String DBState :=
  if ora.beginFails then .error "begin tx"
  else if ora.prepareTxFails then .error "prepare tx insert"
  else if ora.prepareAttrFails then .error "prepare attribute insert"
  else
    match saveTxs ora dec now txs ⟨⟨[], []⟩, 0, 0, clock0⟩ with
    | .error e => .error e
    | .ok st =>
      if ora.commitFails then .error "commit"
      else .ok ⟨db.txRows ++ st.staged.txRows, db.attrRows ++ st.staged.attrRows⟩

/-- The rows visible after a `Save` call: the committed state on
success, the unchanged prior state on error (rollback). -/
def saveVisible (ora : SqlOracle) (dec : TX → Except String (List Event))
    (now : Nat → Int) (db : DBState) (txs : List TX) (clock0 : Nat) : DBState :=
  match save ora dec now db txs clock0 with
  | .ok db2 => db2
  | .error _ => db

/-- `Adapter.GetLatestHeight` (postgres.go lines 156-163) over the
datastore model: `SELECT MAX(height) FROM tx` scanned into an `int64`.
With no rows SQL `MAX` is NULL, and `row.Scan` fails to convert NULL
into `int64`, so the call returns an error (the `height` zero value it
returns alongside is discarded); with rows it returns their maximum
height. -/
def getLatestHeight (db : DBState) : Except String Int :=
  match db.txRows with
  | [] => .error "sql: Scan error on column index 0: converting NULL to int64 is unsupported"
  | r :: rest => .ok ((rest.map TxRow.height).foldl max r.height)

/-- `Adapter.GetType` (postgres.go lines 95-97). -/
def getType : String :=
  adapterType

/-! ### Pure row specifications for a saved batch -/

/-- The `tx` rows a successful `Save` appends: one row per record in
input order, with the k-th clock reading as `created_at`. -/
def txRowsOf (now : Nat → Int) : Nat → List TX → List TxRow
  | _, [] => []
  | c, tx :: rest =>
    ⟨tx.raw.hash, tx.raw.index, tx.raw.height, tx.blockTime, now c⟩ ::
      txRowsOf now (c + 1) rest

/-- The attribute rows of one event at ordinal `i`, in attribute
order; an unserializable value yields the `json.Marshal` error. -/
def attrRowsOfEvent (hash ty : String) (i : Nat) :
    List Attribute → Except String (List AttrRow)
  | [] => .ok []
  | attr :: rest =>
    match jsonMarshal attr.value with
    | .error e => .error e
    | .ok v =>
      match attrRowsOfEvent hash ty i rest with
      | .error e => .error e
      | .ok rows => .ok (⟨hash, ty, i, attr.key, v⟩ :: rows)

/-- The attribute rows of an event list starting at ordinal `i`. -/
def attrRowsOfEvents (hash : String) : Nat → List Event → Except String (List AttrRow)
  | _, [] => .ok []
  | i, evt :: rest =>
    match attrRowsOfEvent hash evt.type i evt.attributes with
    | .error e => .error e
    | .ok rows =>
      match attrRowsOfEvents hash (i + 1) rest with
      | .error e => .error e
      | .ok rows2 => .ok (rows ++ rows2)

/-- The attribute rows of a whole batch, in insertion order. -/
def attrRowsOfBatch (dec : TX → Except String (List Event)) :
    List TX → Except String (List AttrRow)
  | [] => .ok []
  | tx :: rest =>
    match dec tx with
    | .error e => .error e
    | .ok events =>
      match attrRowsOfEvents tx.raw.hash 0 events with
      | .error e => .error e
      | .ok rows =>
        match attrRowsOfBatch dec rest with
        | .error e => .error e
        | .ok rows2 => .ok (rows ++ rows2)

theorem saveAttrs_ok (ora : SqlOracle) (hash ty : String) (i : Nat) :
    ∀ (attrs : List Attribute) (st st2 : SaveSt),
    saveAttrs ora hash ty i attrs st = .ok st2 →
    ∃ rows, attrRowsOfEvent hash ty i attrs = .ok rows ∧
      st2.staged.txRows = st.staged.txRows ∧
      st2.staged.attrRows = st.staged.attrRows ++ rows ∧
      st2.txCalls = st.txCalls ∧
      st2.attrCalls = st.attrCalls + rows.length ∧
      st2.clock = st.clock := by
  intro attrs
  induction attrs with
  | nil =>
    intro st st2 h
    simp only [saveAttrs] at h
    injection h with h2
    subst h2
    exact ⟨[], rfl, rfl, by simp, rfl, by simp, rfl⟩
  | cons attr rest ih =>
    intro st st2 h
    simp only [saveAttrs] at h
    cases hm : jsonMarshal attr.value with
    | error e => rw [hm] at h; simp at h
    | ok v =>
      rw [hm] at h
      dsimp only at h
      by_cases hf : ora.execAttrFails st.attrCalls
      · rw [if_pos hf] at h
        simp at h
      · rw [if_neg hf] at h
        obtain ⟨rows, hrows, htx, hattr, htc, hac, hcl⟩ := ih _ _ h
        refine ⟨⟨hash, ty, i, attr.key, v⟩ :: rows, ?_, ?_, ?_, ?_, ?_, ?_⟩
        · simp only [attrRowsOfEvent, hm, hrows]
        · simpa using htx
        · rw [hattr]
          simp
        · simpa using htc
        · rw [hac]
          simp only [List.length_cons]
          omega
        · simpa using hcl

theorem saveEvents_ok (ora : SqlOracle) (hash : String) :
    ∀ (events : List Event) (i : Nat) (st st2 : SaveSt),
    saveEvents ora hash i events st = .ok st2 →
    ∃ rows, attrRowsOfEvents hash i events = .ok rows ∧
      st2.staged.txRows = st.staged.txRows ∧
      st2.staged.attrRows = st.staged.attrRows ++ rows ∧
      st2.txCalls = st.txCalls ∧
      st2.attrCalls = st.attrCalls + rows.length ∧
      st2.clock = st.clock := by
  intro events
  induction events with
  | nil =>
    intro i st st2 h
    simp only [saveEvents] at h
    injection h with h2
    subst h2
    exact ⟨[], rfl, rfl, by simp, rfl, by simp, rfl⟩
  | cons evt rest ih =>
    intro i st st2 h
    simp only [saveEvents] at h
    cases ha : saveAttrs ora hash evt.type i evt.attributes st with
    | error e => rw [ha] at h; simp at h
    | ok stE =>
      rw [ha] at h
      dsimp only at h
      obtain ⟨rowsE, hrowsE, htxE, hattrE, htcE, hacE, hclE⟩ :=
        saveAttrs_ok ora hash evt.type i evt.attributes st stE ha
      obtain ⟨rowsR, hrowsR, htxR, hattrR, htcR, hacR, hclR⟩ := ih (i + 1) stE st2 h
      refine ⟨rowsE ++ rowsR, ?_, ?_, ?_, ?_, ?_, ?_⟩
      · simp only [attrRowsOfEvents, hrowsE, hrowsR]
      · rw [htxR, htxE]
      · rw [hattrR, hattrE]
        simp
      · rw [htcR, htcE]
      · rw [hacR, hacE]
        simp only [List.length_append]
        omega
      · rw [hclR, hclE]

theorem saveTxs_ok (ora : SqlOracle) (dec : TX → Except String (List Event))
    (now : Nat → Int) :
    ∀ (txs : List TX) (st st2 : SaveSt),
    saveTxs ora dec now txs st = .ok st2 →
    ∃ arows, attrRowsOfBatch dec txs = .ok arows ∧
      st2.staged.txRows = st.staged.txRows ++ txRowsOf now st.clock txs ∧
      st2.staged.attrRows = st.staged.attrRows ++ arows ∧
      st2.clock = st.clock + txs.length := by
  intro txs
  induction txs with
  | nil =>
    intro st st2 h
    simp only [saveTxs] at h
    injection h with h2
    subst h2
    exact ⟨[], rfl, by simp [txRowsOf], by simp, by simp⟩
  | cons tx rest ih =>
    intro st st2 h
    simp only [saveTxs] at h
    by_cases hf : ora.execTxFails st.txCalls
    · rw [if_pos hf] at h
      simp at h
    · rw [if_neg hf] at h
      cases hd : dec tx with
      | error e => rw [hd] at h; simp at h
      | ok events =>
        rw [hd] at h
        dsimp only at h
        cases he : saveEvents ora tx.raw.hash 0 events
          { staged := { st.staged with
              txRows := st.staged.txRows ++
                [⟨tx.raw.hash, tx.raw.index, tx.raw.height, tx.blockTime, now st.clock⟩] }
            txCalls := st.txCalls + 1
            attrCalls := st.attrCalls
            clock := st.clock + 1 } with
        | error e => rw [he] at h; simp at h
        | ok stE =>
          rw [he] at h
          dsimp only at h
          obtain ⟨rowsE, hrowsE, htxE, hattrE, htcE, hacE, hclE⟩ :=
            saveEvents_ok ora tx.raw.hash events 0 _ stE he
          obtain ⟨arows, harows, htxR, hattrR, hclR⟩ := ih stE st2 h
          refine ⟨rowsE ++ arows, ?_, ?_, ?_, ?_⟩
          · simp only [attrRowsOfBatch, hd, hrowsE, harows]
          · rw [htxR, htxE]
            simp only
            rw [hclE]
            simp only [txRowsOf, List.append_assoc, List.singleton_append]
          · rw [hattrR, hattrE]
            simp
          · rw [hclR, hclE]
            simp only [List.length_cons]
            omega

theorem save_ok (ora : SqlOracle) (dec : TX → Except String (List Event))
    (now : Nat → Int) (db : DBState) (txs : List TX) (clock0 : Nat) (db2 : DBState)
    (h : save ora dec now db txs clock0 = .ok db2) :
    ora.beginFails = false ∧ ora.prepareTxFails = false ∧
    ora.prepareAttrFails = false ∧ ora.commitFails = false ∧
    ∃ arows, attrRowsOfBatch dec txs = .ok arows ∧
      db2.txRows = db.txRows ++ txRowsOf now clock0 txs ∧
      db2.attrRows = db.attrRows ++ arows := by
  unfold save at h
  by_cases h1 : ora.beginFails = true
  · rw [if_pos h1] at h
    simp at h
  rw [if_neg h1] at h
  by_cases h2 : ora.prepareTxFails = true
  · rw [if_pos h2] at h
    simp at h
  rw [if_neg h2] at h
  by_cases h3 : ora.prepareAttrFails = true
  · rw [if_pos h3] at h
    simp at h
  rw [if_neg h3] at h
  cases hs : saveTxs ora dec now txs ⟨⟨[], []⟩, 0, 0, clock0⟩ with
  | error e => rw [hs] at h; simp at h
  | ok st =>
    rw [hs] at h
    dsimp only at h
    by_cases h4 : ora.commitFails = true
    · rw [if_pos h4] at h
      simp at h
    rw [if_neg h4] at h
    injection h with h5
    subst h5
    obtain ⟨arows, harows, htx, hattr, _⟩ :=
      saveTxs_ok ora dec now txs _ st hs
    simp only [Bool.not_eq_true] at h1 h2 h3 h4
    refine ⟨h1, h2, h3, h4, arows, harows, ?_, ?_⟩
    · rw [htx]
      simp
    · rw [hattr]
      simp

theorem saveVisible_of_error (ora : SqlOracle) (dec : TX → Except String (List Event))
    (now : Nat → Int) (db : DBState) (txs : List TX) (clock0 : Nat) (e : String)
    (h : save ora dec now db txs clock0 = .error e) :
    saveVisible ora dec now db txs clock0 = db := by
  unfold saveVisible
  rw [h]

theorem saveVisible_of_ok (ora : SqlOracle) (dec : TX → Except String (List Event))
    (now : Nat → Int) (db : DBState) (txs : List TX) (clock0 : Nat) (db2 : DBState)
    (h : save ora dec now db txs clock0 = .ok db2) :
    saveVisible ora dec now db txs clock0 = db2 := by
  unfold saveVisible
  rw [h]

theorem txRowsOf_length (now : Nat → Int) :
    ∀ (c : Nat) (txs : List TX), (txRowsOf now c txs).length = txs.length := by
  intro c txs
  induction txs generalizing c with
  | nil => rfl
  | cons tx rest ih => simp [txRowsOf, ih]

theorem txRowsOf_get_createdAt (now : Nat → Int) :
    ∀ (txs : List TX) (c k : Nat) (hk : k < (txRowsOf now c txs).length),
    ((txRowsOf now c txs).get ⟨k, hk⟩).createdAt = now (c + k) := by
  intro txs
  induction txs with
  | nil => intro c k hk; simp [txRowsOf] at hk
  | cons tx rest ih =>
    intro c k hk
    cases k with
    | zero => simp [txRowsOf]
    | succ k =>
      simp only [txRowsOf, List.get_cons_succ]
      rw [ih (c + 1) k]
      congr 1
      omega

theorem txRowsOf_createdAt_indep (now : Nat → Int) :
    ∀ (txs1 txs2 : List TX) (c : Nat), txs1.length = txs2.length →
    (txRowsOf now c txs1).map TxRow.createdAt =
      (txRowsOf now c txs2).map TxRow.createdAt := by
  intro txs1
  induction txs1 with
  | nil =>
    intro txs2 c h
    cases txs2 with
    | nil => rfl
    | cons t r => simp at h
  | cons tx rest ih =>
    intro txs2 c h
    cases txs2 with
    | nil => simp at h
    | cons tx2 rest2 =>
      simp only [List.length_cons] at h
      simp only [txRowsOf, List.map_cons]
      rw [ih rest2 (c + 1) (by omega)]

theorem attrRowsOfEvent_ok_length (hash ty : String) (i : Nat) :
    ∀ (attrs : List Attribute) (rows : List AttrRow),
    attrRowsOfEvent hash ty i attrs = .ok rows → rows.length = attrs.length := by
  intro attrs
  induction attrs with
  | nil =>
    intro rows h
    simp only [attrRowsOfEvent] at h
    injection h with h2
    rw [← h2]
    rfl
  | cons attr rest ih =>
    intro rows h
    simp only [attrRowsOfEvent] at h
    cases hm : jsonMarshal attr.value with
    | error e => rw [hm] at h; simp at h
    | ok v =>
      rw [hm] at h
      dsimp only at h
      cases hr : attrRowsOfEvent hash ty i rest with
      | error e => rw [hr] at h; simp at h
      | ok rows2 =>
        rw [hr] at h
        dsimp only at h
        injection h with h2
        rw [← h2]
        simp [ih rows2 hr]

theorem attrRowsOfEvents_ok_length (hash : String) (A : Nat) :
    ∀ (events : List Event) (i : Nat) (rows : List AttrRow),
    (∀ evt ∈ events, evt.attributes.length = A) →
    attrRowsOfEvents hash i events = .ok rows → rows.length = events.length * A := by
  intro events
  induction events with
  | nil =>
    intro i rows _ h
    simp only [attrRowsOfEvents] at h
    injection h with h2
    rw [← h2]
    simp
  | cons evt rest ih =>
    intro i rows hA h
    simp only [attrRowsOfEvents] at h
    cases he : attrRowsOfEvent hash evt.type i evt.attributes with
    | error e => rw [he] at h; simp at h
    | ok rowsE =>
      rw [he] at h
      dsimp only at h
      cases hr : attrRowsOfEvents hash (i + 1) rest with
      | error e => rw [hr] at h; simp at h
      | ok rowsR =>
        rw [hr] at h
        dsimp only at h
        injection h with h2
        rw [← h2]
        have h1 : rowsE.length = evt.attributes.length :=
          attrRowsOfEvent_ok_length hash evt.type i evt.attributes rowsE he
        have h2 : rowsR.length = rest.length * A :=
          ih (i + 1) rowsR (fun e he2 => hA e (List.mem_cons_of_mem evt he2)) hr
        have h3 : evt.attributes.length = A := hA evt (List.mem_cons_self evt rest)
        simp only [List.length_append, List.length_cons]
        rw [h1, h2, h3]
        ring

theorem attrRowsOfBatch_ok_length (dec : TX → Except String (List Event)) (E A : Nat) :
    ∀ (txs : List TX) (arows : List AttrRow),
    (∀ tx ∈ txs, ∃ events, dec tx = .ok events ∧ events.length = E ∧
      ∀ evt ∈ events, evt.attributes.length = A) →
    attrRowsOfBatch dec txs = .ok arows → arows.length = txs.length * (E * A) := by
  intro txs
  induction txs with
  | nil =>
    intro arows _ h
    simp only [attrRowsOfBatch] at h
    injection h with h2
    rw [← h2]
    simp
  | cons tx rest ih =>
    intro arows hU h
    simp only [attrRowsOfBatch] at h
    obtain ⟨events, hdec, hE, hA⟩ := hU tx (List.mem_cons_self tx rest)
    rw [hdec] at h
    dsimp only at h
    cases he : attrRowsOfEvents tx.raw.hash 0 events with
    | error e => rw [he] at h; simp at h
    | ok rowsE =>
      rw [he] at h
      dsimp only at h
      cases hr : attrRowsOfBatch dec rest with
      | error e => rw [hr] at h; simp at h
      | ok rowsR =>
        rw [hr] at h
        dsimp only at h
        injection h with h2
        rw [← h2]
        have h1 : rowsE.length = events.length * A :=
          attrRowsOfEvents_ok_length tx.raw.hash A events 0 rowsE hA he
        have h3 : rowsR.length = rest.length * (E * A) :=
          ih rowsR (fun t ht => hU t (List.mem_cons_of_mem tx ht)) hr
        simp only [List.length_append, List.length_cons]
        rw [h1, h3, hE]
        ring

theorem attrRowsOfEvent_mem (hash ty : String) (i : Nat) :
    ∀ (attrs : List Attribute) (rows : List AttrRow),
    attrRowsOfEvent hash ty i attrs = .ok rows →
    ∀ r ∈ rows, r.txHash = hash ∧ r.eventType = ty ∧ r.eventIndex = i ∧
      ∃ attr ∈ attrs, r.name = attr.key ∧ jsonMarshal attr.value = .ok r.value := by
  intro attrs
  induction attrs with
  | nil =>
    intro rows h r hr
    simp only [attrRowsOfEvent] at h
    injection h with h2
    rw [← h2] at hr
    simp at hr
  | cons attr rest ih =>
    intro rows h r hr
    simp only [attrRowsOfEvent] at h
    cases hm : jsonMarshal attr.value with
    | error e => rw [hm] at h; simp at h
    | ok v =>
      rw [hm] at h
      dsimp only at h
      cases hrec : attrRowsOfEvent hash ty i rest with
      | error e => rw [hrec] at h; simp at h
      | ok rows2 =>
        rw [hrec] at h
        dsimp only at h
        injection h with h2
        rw [← h2] at hr
        rcases List.mem_cons.mp hr with hr | hr
        · subst hr
          exact ⟨rfl, rfl, rfl, attr, List.mem_cons_self attr rest, rfl, hm⟩
        · obtain ⟨hh, ht, hi, attr2, ha2, hn2, hv2⟩ := ih rows2 hrec r hr
          exact ⟨hh, ht, hi, attr2, List.mem_cons_of_mem attr ha2, hn2, hv2⟩

theorem attrRowsOfEvents_mem (hash : String) :
    ∀ (events : List Event) (i : Nat) (rows : List AttrRow),
    attrRowsOfEvents hash i events = .ok rows →
    ∀ r ∈ rows, r.txHash = hash ∧ ∃ k, ∃ hk : k < events.length,
      r.eventIndex = i + k ∧ r.eventType = (events.get ⟨k, hk⟩).type ∧
      ∃ attr ∈ (events.get ⟨k, hk⟩).attributes,
        r.name = attr.key ∧ jsonMarshal attr.value = .ok r.value := by
  intro events
  induction events with
  | nil =>
    intro i rows h r hr
    simp only [attrRowsOfEvents] at h
    injection h with h2
    rw [← h2] at hr
    simp at hr
  | cons evt rest ih =>
    intro i rows h r hr
    simp only [attrRowsOfEvents] at h
    cases he : attrRowsOfEvent hash evt.type i evt.attributes with
    | error e => rw [he] at h; simp at h
    | ok rowsE =>
      rw [he] at h
      dsimp only at h
      cases hrec : attrRowsOfEvents hash (i + 1) rest with
      | error e => rw [hrec] at h; simp at h
      | ok rowsR =>
        rw [hrec] at h
        dsimp only at h
        injection h with h2
        rw [← h2] at hr
        rcases List.mem_append.mp hr with hr | hr
        · obtain ⟨hh, ht, hi, attr, ha, hn, hv⟩ :=
            attrRowsOfEvent_mem hash evt.type i evt.attributes rowsE he r hr
          refine ⟨hh, 0, by simp, by omega, ?_, attr, ?_, hn, hv⟩
          · simpa using ht
          · simpa using ha
        · obtain ⟨hh, k, hk, hi, ht, attr, ha, hn, hv⟩ := ih (i + 1) rowsR hrec r hr
          refine ⟨hh, k + 1, by simpa using Nat.succ_lt_succ hk, by omega, ?_, attr, ?_,
            hn, hv⟩
          · simpa using ht
          · simpa using ha

theorem attrRowsOfBatch_mem (dec : TX → Except String (List Event)) :
    ∀ (txs : List TX) (arows : List AttrRow),
    attrRowsOfBatch dec txs = .ok arows →
    ∀ r ∈ arows, ∃ tx ∈ txs, ∃ events, dec tx = .ok events ∧
      r.txHash = tx.raw.hash ∧ ∃ hk : r.eventIndex < events.length,
      r.eventType = (events.get ⟨r.eventIndex, hk⟩).type ∧
      ∃ attr ∈ (events.get ⟨r.eventIndex, hk⟩).attributes,
        r.name = attr.key ∧ jsonMarshal attr.value = .ok r.value := by
  intro txs
  induction txs with
  | nil =>
    intro arows h r hr
    simp only [attrRowsOfBatch] at h
    injection h with h2
    rw [← h2] at hr
    simp at hr
  | cons tx rest ih =>
    intro arows h r hr
    simp only [attrRowsOfBatch] at h
    cases hd : dec tx with
    | error e => rw [hd] at h; simp at h
    | ok events =>
      rw [hd] at h
      dsimp only at h
      cases he : attrRowsOfEvents tx.raw.hash 0 events with
      | error e => rw [he] at h; simp at h
      | ok rowsE =>
        rw [he] at h
        dsimp only at h
        cases hrec : attrRowsOfBatch dec rest with
        | error e => rw [hrec] at h; simp at h
        | ok rowsR =>
          rw [hrec] at h
          dsimp only at h
          injection h with h2
          rw [← h2] at hr
          rcases List.mem_append.mp hr with hr | hr
          · obtain ⟨hh, k, hk, hi, ht, attr, ha, hn, hv⟩ :=
              attrRowsOfEvents_mem tx.raw.hash events 0 rowsE he r hr
            have hi2 : r.eventIndex = k := by omega
            subst hi2
            exact ⟨tx, List.mem_cons_self tx rest, events, hd, hh, hk, ht, attr, ha,
              hn, hv⟩
          · obtain ⟨tx2, htx2, events2, hd2, hh2, hk2, ht2, attr2, ha2, hn2, hv2⟩ :=
              ih rowsR hrec r hr
            exact ⟨tx2, List.mem_cons_of_mem tx htx2, events2, hd2, hh2, hk2, ht2,
              attr2, ha2, hn2, hv2⟩

theorem le_foldl_max (l : List Int) (a : Int) : a ≤ l.foldl max a := by
  induction l generalizing a with
  | nil => exact le_refl a
  | cons b l ih => exact le_trans (le_max_left a b) (ih (max a b))

theorem mem_le_foldl_max (l : List Int) (a x : Int) (hx : x ∈ l) :
    x ≤ l.foldl max a := by
  induction l generalizing a with
  | nil => simp at hx
  | cons b l ih =>
    rcases List.mem_cons.mp hx with h | h
    · subst h
      exact le_trans (le_max_right a x) (le_foldl_max l (max a x))
    · exact ih (max a b) h

theorem foldl_max_mem (l : List Int) (a : Int) :
    l.foldl max a = a ∨ l.foldl max a ∈ l := by
  induction l generalizing a with
  | nil => exact Or.inl rfl
  | cons b l ih =>
    rcases ih (max a b) with h | h
    · rcases max_choice a b with h2 | h2
      · exact Or.inl (by rw [List.foldl_cons, h, h2])
      · exact Or.inr (by rw [List.foldl_cons, h, h2]; exact List.mem_cons_self b l)
    · exact Or.inr (List.mem_cons_of_mem b h)

/-- Field-projection preservation under an option fold: an option that
does not target the projected field leaves it unchanged. -/
theorem foldl_applyOption_preserve {α : Type} (f : AdapterCfg → α)
    (P : AdapterOption → Bool)
    (hP : ∀ (a : AdapterCfg) (o : AdapterOption), P o = false →
      f (applyOption a o) = f a) :
    ∀ (opts : List AdapterOption) (a : AdapterCfg), (∀ o ∈ opts, P o = false) →
    f (opts.foldl applyOption a) = f a := by
  intro opts
  induction opts with
  | nil => intro a _; rfl
  | cons o rest ih =>
    intro a hall
    simp only [List.foldl_cons]
    rw [ih (applyOption a o) (fun o2 ho2 => hall o2 (List.mem_cons_of_mem o ho2))]
    exact hP a o (hall o (List.mem_cons_self o rest))

def isWithHost : AdapterOption → Bool
  | .withHost _ => true
  | _ => false

def isWithPort : AdapterOption → Bool
  | .withPort _ => true
  | _ => false

def isWithUser : AdapterOption → Bool
  | .withUser _ => true
  | _ => false

def isWithPassword : AdapterOption → Bool
  | .withPassword _ => true
  | _ => false

def isWithParams : AdapterOption → Bool
  | .withParams _ => true
  | _ => false

/-! ### Structure of the built connection target -/

theorem string_append_data (s t : String) : (s ++ t).data = s.data ++ t.data := by
  cases s
  cases t
  rfl

theorem hostPortStr_ne_empty (a : AdapterCfg) : hostPortStr a ≠ "" := by
  unfold hostPortStr
  intro h
  have h2 : (a.host ++ ":" ++ strOfCodes (natDec a.port)).data = ("" : String).data :=
    congrArg String.data h
  rw [string_append_data, string_append_data] at h2
  simp at h2

/-- The escaped `host:port` segment of the URI. -/
def hostPart (a : AdapterCfg) : List Nat :=
  escapeBytes .host (strBytes (hostPortStr a))

/-- The path segment of the URI (escaped database name, with the `/`
inserted by `url.URL.String` when the path is non-empty). -/
def pathPartB (a : AdapterCfg) : List Nat :=
  let p := if a.database = "*" then [42] else escapeBytes .path (strBytes a.database)
  (if p ≠ [] ∧ p.headI ≠ 47 ∧ hostPortStr a ≠ "" then [47] else []) ++ p

/-- The raw query of the URI: the encoded parameter map when non-nil. -/
def rawQueryOf (a : AdapterCfg) : List Nat :=
  match a.params with
  | some ps => valuesEncode ps
  | none => []

/-- The query segment of the URI (`?` plus raw query when non-empty). -/
def queryPartB (a : AdapterCfg) : List Nat :=
  if rawQueryOf a ≠ [] then 63 :: rawQueryOf a else []

theorem uri_no_user (a : AdapterCfg) (hu : a.user = "") :
    createPostgresURIBytes a =
      strBytes adapterType ++ [58, 47, 47] ++ hostPart a ++ pathPartB a ++
        queryPartB a := by
  have hh : hostPortStr a ≠ "" := hostPortStr_ne_empty a
  unfold createPostgresURIBytes urlString createPostgresURL
  dsimp only
  rw [if_neg (show ¬ (a.user ≠ "") from by simpa using hu)]
  rw [if_pos (show adapterType ≠ "" from by decide)]
  rw [if_pos (show adapterType ≠ "" ∨ hostPortStr a ≠ "" ∨
    (none : Option Userinfo).isSome = true from Or.inl (by decide))]
  rw [if_pos (show hostPortStr a ≠ "" ∨ a.database ≠ "" ∨
    (none : Option Userinfo).isSome = true from Or.inl hh)]
  rw [if_pos hh]
  unfold hostPart pathPartB queryPartB rawQueryOf
  dsimp only
  simp only [List.append_assoc, List.cons_append, List.singleton_append,
    List.nil_append, List.append_nil]

theorem uri_user_only (a : AdapterCfg) (hu : a.user ≠ "") (hp : a.password = "") :
    createPostgresURIBytes a =
      strBytes adapterType ++ [58, 47, 47] ++
        escapeBytes .userPassword (strBytes a.user) ++ [64] ++ hostPart a ++
        pathPartB a ++ queryPartB a := by
  have hh : hostPortStr a ≠ "" := hostPortStr_ne_empty a
  unfold createPostgresURIBytes urlString createPostgresURL
  dsimp only
  rw [if_pos hu]
  rw [if_neg (show ¬ (a.password ≠ "") from by simpa using hp)]
  rw [if_pos (show adapterType ≠ "" from by decide)]
  rw [if_pos (show adapterType ≠ "" ∨ hostPortStr a ≠ "" ∨
    (some (Userinfo.user a.user)).isSome = true from Or.inl (by decide))]
  rw [if_pos (show hostPortStr a ≠ "" ∨ a.database ≠ "" ∨
    (some (Userinfo.user a.user)).isSome = true from Or.inl hh)]
  rw [if_pos hh]
  unfold userinfoBytes hostPart pathPartB queryPartB rawQueryOf
  dsimp only
  simp only [List.append_assoc, List.cons_append, List.singleton_append,
    List.nil_append, List.append_nil]

theorem uri_user_password (a : AdapterCfg) (hu : a.user ≠ "") (hp : a.password ≠ "") :
    createPostgresURIBytes a =
      strBytes adapterType ++ [58, 47, 47] ++
        escapeBytes .userPassword (strBytes a.user) ++ [58] ++
        escapeBytes .userPassword (strBytes a.password) ++ [64] ++ hostPart a ++
        pathPartB a ++ queryPartB a := by
  have hh : hostPortStr a ≠ "" := hostPortStr_ne_empty a
  unfold createPostgresURIBytes urlString createPostgresURL
  dsimp only
  rw [if_pos hu]
  rw [if_pos hp]
  rw [if_pos (show adapterType ≠ "" from by decide)]
  rw [if_pos (show adapterType ≠ "" ∨ hostPortStr a ≠ "" ∨
    (some (Userinfo.userPassword a.user a.password)).isSome = true from
    Or.inl (by decide))]
  rw [if_pos (show hostPortStr a ≠ "" ∨ a.database ≠ "" ∨
    (some (Userinfo.userPassword a.user a.password)).isSome = true from Or.inl hh)]
  rw [if_pos hh]
  unfold userinfoBytes hostPart pathPartB queryPartB rawQueryOf
  dsimp only
  simp only [List.append_assoc, List.cons_append, List.singleton_append,
    List.nil_append, List.append_nil]

theorem qmark_not_mem_hostPart (a : AdapterCfg) : 63 ∉ hostPart a :=
  qmark_not_mem_escapeBytes .host _

theorem qmark_not_mem_pathPartB (a : AdapterCfg) : 63 ∉ pathPartB a := by
  unfold pathPartB
  intro h
  dsimp only at h
  rcases List.mem_append.mp h with h | h
  · split_ifs at h <;> simp at h
  · split_ifs at h
    · simp at h
    · exact qmark_not_mem_escapeBytes .path _ h

theorem valuesEncode_ne_nil (ps : List (String × String)) (h : ps ≠ []) :
    valuesEncode ps ≠ [] := by
  unfold valuesEncode
  cases hs : sortBy keyLe ps with
  | nil =>
    exfalso
    have hperm := sortBy_perm keyLe ps
    rw [hs] at hperm
    exact h hperm.symm.eq_nil
  | cons p rest =>
    cases rest with
    | nil =>
      simp only [List.map_cons, List.map_nil]
      rw [show joinAmp [encPart p] = encPart p from rfl]
      exact encPart_ne_nil p
    | cons q m =>
      simp only [List.map_cons]
      rw [show joinAmp (encPart p :: encPart q :: List.map encPart m) =
        encPart p ++ 38 :: joinAmp (encPart q :: List.map encPart m) from rfl]
      simp

theorem uri_split_query (a : AdapterCfg) :
    ∃ pre, createPostgresURIBytes a = pre ++ queryPartB a ∧ 63 ∉ pre := by
  by_cases hu : a.user = ""
  · refine ⟨strBytes adapterType ++ [58, 47, 47] ++ hostPart a ++ pathPartB a, ?_, ?_⟩
    · rw [uri_no_user a hu]
    · intro h
      rcases List.mem_append.mp h with h | h
      · rcases List.mem_append.mp h with h | h
        · rcases List.mem_append.mp h with h | h
          · exact absurd h (by decide)
          · simp at h
        · exact qmark_not_mem_hostPart a h
      · exact qmark_not_mem_pathPartB a h
  · by_cases hp : a.password = ""
    · refine ⟨strBytes adapterType ++ [58, 47, 47] ++
        escapeBytes .userPassword (strBytes a.user) ++ [64] ++ hostPart a ++
        pathPartB a, ?_, ?_⟩
      · rw [uri_user_only a hu hp]
      · intro h
        rcases List.mem_append.mp h with h | h
        · rcases List.mem_append.mp h with h | h
          · rcases List.mem_append.mp h with h | h
            · rcases List.mem_append.mp h with h | h
              · rcases List.mem_append.mp h with h | h
                · exact absurd h (by decide)
                · simp at h
              · exact qmark_not_mem_escapeBytes .userPassword _ h
            · simp at h
          · exact qmark_not_mem_hostPart a h
        · exact qmark_not_mem_pathPartB a h
    · refine ⟨strBytes adapterType ++ [58, 47, 47] ++
        escapeBytes .userPassword (strBytes a.user) ++ [58] ++
        escapeBytes .userPassword (strBytes a.password) ++ [64] ++ hostPart a ++
        pathPartB a, ?_, ?_⟩
      · rw [uri_user_password a hu hp]
      · intro h
        rcases List.mem_append.mp h with h | h
        · rcases List.mem_append.mp h with h | h
          · rcases List.mem_append.mp h with h | h
            · rcases List.mem_append.mp h with h | h
              · rcases List.mem_append.mp h with h | h
                · rcases List.mem_append.mp h with h | h
                  · rcases List.mem_append.mp h with h | h
                    · exact absurd h (by decide)
                    · simp at h
                  · exact qmark_not_mem_escapeBytes .userPassword _ h
                · simp at h
              · exact qmark_not_mem_escapeBytes .userPassword _ h
            · simp at h
          · exact qmark_not_mem_hostPart a h
        · exact qmark_not_mem_pathPartB a h

/-! ### Per-field option lemmas -/

theorem applyOption_host_of_not (a : AdapterCfg) (o : AdapterOption)
    (h : isWithHost o = false) : (applyOption a o).host = a.host := by
  cases o <;> simp [applyOption] <;> simp [isWithHost] at h

theorem applyOption_port_of_not (a : AdapterCfg) (o : AdapterOption)
    (h : isWithPort o = false) : (applyOption a o).port = a.port := by
  cases o <;> simp [applyOption] <;> simp [isWithPort] at h

theorem applyOption_user_of_not (a : AdapterCfg) (o : AdapterOption)
    (h : isWithUser o = false) : (applyOption a o).user = a.user := by
  cases o <;> simp [applyOption] <;> simp [isWithUser] at h

theorem applyOption_password_of_not (a : AdapterCfg) (o : AdapterOption)
    (h : isWithPassword o = false) : (applyOption a o).password = a.password := by
  cases o <;> simp [applyOption] <;> simp [isWithPassword] at h

theorem applyOption_params_of_not (a : AdapterCfg) (o : AdapterOption)
    (h : isWithParams o = false) : (applyOption a o).params = a.params := by
  cases o <;> simp [applyOption] <;> simp [isWithParams] at h

/-- Go-style escaping of a whole string (escaped output read back as a
string; the output bytes are all ASCII). -/
def goEscape (mode : EncMode) (s : String) : String :=
  strOfCodes (escapeBytes mode (strBytes s))

theorem strOfCodes_append (x y : List Nat) :
    strOfCodes (x ++ y) = strOfCodes x ++ strOfCodes y := by
  unfold strOfCodes
  rw [List.map_append]
  rfl

/-! ### Concrete example inputs used by the witnesses -/

def exTX : TX := ⟨⟨"abc", 0, 100⟩, 7⟩

def exDec : TX → Except String (List Event) :=
  fun _ => .ok [⟨"transfer", [⟨"amount", .js "42"⟩]⟩]

def exNow : Nat → Int := fun k => 1000 + (k : Int)

/-! ### The claims -/

/-- C1: every `Save` call is all-or-nothing.  If any step fails
(beginning the unit of work, preparing either statement, a
transaction-row insert, decoding a transaction's events,
JSON-serialising an attribute value, an attribute-row insert, or the
commit — all such failures are the `.error` outcomes of `save`), the
call returns an error and the visible rows are exactly the prior state;
on success the commit (reached only with every insert staged) publishes
exactly the batch's transaction rows and attribute rows. -/
theorem save_atomicity (ora : SqlOracle) (dec : TX → Except String (List Event))
    (now : Nat → Int) (db : DBState) (txs : List TX) (clock0 : Nat) :
    (∀ e, save ora dec now db txs clock0 = .error e →
      saveVisible ora dec now db txs clock0 = db) ∧
    (∀ db2, save ora dec now db txs clock0 = .ok db2 →
      saveVisible ora dec now db txs clock0 = db2 ∧
      ora.beginFails = false ∧ ora.prepareTxFails = false ∧
      ora.prepareAttrFails = false ∧ ora.commitFails = false ∧
      ∃ arows, attrRowsOfBatch dec txs = .ok arows ∧
        db2.txRows = db.txRows ++ txRowsOf now clock0 txs ∧
        db2.attrRows = db.attrRows ++ arows) := by
  constructor
  · intro e he
    exact saveVisible_of_error ora dec now db txs clock0 e he
  · intro db2 h2
    obtain ⟨h1, h2', h3, h4, arows, harows, htx, hattr⟩ :=
      save_ok ora dec now db txs clock0 db2 h2
    exact ⟨saveVisible_of_ok ora dec now db txs clock0 db2 h2, h1, h2', h3, h4,
      arows, harows, htx, hattr⟩

/-- Witness for C1 at a concrete successful batch. -/
theorem save_atomicity_witness :
    saveVisible okOracle exDec exNow ⟨[], []⟩ [exTX] 0 =
      ⟨[⟨"abc", 0, 100, 7, 1000⟩], [⟨"abc", "transfer", 0, "amount", "42"⟩]⟩ :=
  ((save_atomicity okOracle exDec exNow ⟨[], []⟩ [exTX] 0).2
    ⟨[⟨"abc", 0, 100, 7, 1000⟩], [⟨"abc", "transfer", 0, "amount", "42"⟩]⟩ rfl).1

/-- C2 (falsified): `NewAdapter` never assigns its `database` argument
to the adapter, so the built connection target has an empty path
instead of `/database`: with database `chain` and no options the URI is
`postgres://127.0.0.1:5432`, and the whole configuration is
independent of the database argument. -/
theorem newAdapter_ignores_database :
    createPostgresURI (newAdapter "chain" []) = "postgres://127.0.0.1:5432" ∧
    (newAdapter "chain" []).database = "" ∧
    ∀ (db1 db2 : String) (opts : List AdapterOption),
      newAdapter db1 opts = newAdapter db2 opts :=
  ⟨rfl, rfl, fun _ _ _ => rfl⟩

/-- C3: `GetLatestHeight` on an empty store returns an error (the NULL
`MAX` fails the `int64` scan) and never a successful height — in
particular never a silent zero; on a non-empty store it returns the
maximum stored height (not the last-written one). -/
theorem getLatestHeight_nodata_max (db : DBState) :
    (db.txRows = [] → (∃ e, getLatestHeight db = .error e) ∧
      ∀ z : Int, getLatestHeight db ≠ .ok z) ∧
    (db.txRows ≠ [] → ∃ h, getLatestHeight db = .ok h ∧
      (∃ r ∈ db.txRows, r.height = h) ∧ ∀ r ∈ db.txRows, r.height ≤ h) := by
  constructor
  · intro hempty
    constructor
    · refine ⟨"sql: Scan error on column index 0: converting NULL to int64 is unsupported", ?_⟩
      unfold getLatestHeight
      rw [hempty]
    · intro z hz
      unfold getLatestHeight at hz
      rw [hempty] at hz
      simp at hz
  · intro hne
    cases hrows : db.txRows with
    | nil => exact absurd hrows hne
    | cons r rest =>
      refine ⟨(rest.map TxRow.height).foldl max r.height, ?_, ?_, ?_⟩
      · unfold getLatestHeight
        rw [hrows]
      · rcases foldl_max_mem (rest.map TxRow.height) r.height with h | h
        · exact ⟨r, List.mem_cons_self r rest, h.symm⟩
        · obtain ⟨r2, hr2, hh⟩ := List.mem_map.mp h
          exact ⟨r2, List.mem_cons_of_mem r hr2, hh⟩
      · intro r2 hr2
        rcases List.mem_cons.mp hr2 with h | h
        · subst h
          exact le_foldl_max (rest.map TxRow.height) r2.height
        · exact mem_le_foldl_max (rest.map TxRow.height) r.height r2.height
            (List.mem_map_of_mem TxRow.height h)

/-- Witness for C3: an empty store errors; a two-row store yields the
maximum height. -/
theorem getLatestHeight_nodata_max_witness :
    (∀ z : Int, getLatestHeight ⟨[], []⟩ ≠ .ok z) ∧
    (∃ h, getLatestHeight ⟨[⟨"a", 0, 100, 0, 0⟩, ⟨"b", 1, 105, 0, 0⟩], []⟩ = .ok h ∧
      (∃ r ∈ [⟨"a", 0, 100, 0, 0⟩, (⟨"b", 1, 105, 0, 0⟩ : TxRow)], r.height = h) ∧
      ∀ r ∈ [⟨"a", 0, 100, 0, 0⟩, (⟨"b", 1, 105, 0, 0⟩ : TxRow)], r.height ≤ h) :=
  ⟨((getLatestHeight_nodata_max ⟨[], []⟩).1 rfl).2,
   (getLatestHeight_nodata_max ⟨[⟨"a", 0, 100, 0, 0⟩, ⟨"b", 1, 105, 0, 0⟩], []⟩).2
     (by simp)⟩

/-- C4: a successful `Save` of N transactions, each decoding to E
events of A attributes, appends exactly N transaction rows and N·E·A
attribute rows, and every appended attribute row's `event_index` is the
ordinal position of its event in the owning transaction's event list
(matching the event's type and one of its attributes). -/
theorem save_row_counts (ora : SqlOracle) (dec : TX → Except String (List Event))
    (now : Nat → Int) (db : DBState) (txs : List TX) (clock0 : Nat) (db2 : DBState)
    (E A : Nat)
    (hok : save ora dec now db txs clock0 = .ok db2)
    (hshape : ∀ tx ∈ txs, ∃ events, dec tx = .ok events ∧ events.length = E ∧
      ∀ evt ∈ events, evt.attributes.length = A) :
    db2.txRows.length = db.txRows.length + txs.length ∧
    db2.attrRows.length = db.attrRows.length + txs.length * (E * A) ∧
    ∀ r ∈ db2.attrRows.drop db.attrRows.length,
      ∃ tx ∈ txs, ∃ events, dec tx = .ok events ∧ r.txHash = tx.raw.hash ∧
        ∃ hk : r.eventIndex < events.length,
          r.eventType = (events.get ⟨r.eventIndex, hk⟩).type ∧
          ∃ attr ∈ (events.get ⟨r.eventIndex, hk⟩).attributes,
            r.name = attr.key ∧ jsonMarshal attr.value = .ok r.value := by
  obtain ⟨_, _, _, _, arows, harows, htx, hattr⟩ :=
    save_ok ora dec now db txs clock0 db2 hok
  refine ⟨?_, ?_, ?_⟩
  · rw [htx]
    simp [txRowsOf_length]
  · rw [hattr]
    simp [attrRowsOfBatch_ok_length dec E A txs arows hshape harows]
  · rw [hattr, List.drop_left]
    exact attrRowsOfBatch_mem dec txs arows harows

/-- Witness for C4 at a concrete one-transaction batch (N = E = A = 1). -/
theorem save_row_counts_witness :
    (⟨[⟨"abc", 0, 100, 7, 1000⟩],
      [⟨"abc", "transfer", 0, "amount", "42"⟩]⟩ : DBState).txRows.length =
      (⟨[], []⟩ : DBState).txRows.length + [exTX].length :=
  (save_row_counts okOracle exDec exNow ⟨[], []⟩ [exTX] 0
    ⟨[⟨"abc", 0, 100, 7, 1000⟩], [⟨"abc", "transfer", 0, "amount", "42"⟩]⟩ 1 1 rfl
    (fun tx _ => ⟨[⟨"transfer", [⟨"amount", .js "42"⟩]⟩], rfl, rfl, by decide⟩)).1

/-- C5 (counterexample): the attribute store carries no attribute
ordinal, so two event lists differing only in attribute order within
one event produce row lists that are equal as multisets — no function
of the stored rows (independent of the engine's storage order) can
recover the original attribute order. -/
theorem attr_order_not_stored :
    ∃ r1 r2 : List AttrRow,
      attrRowsOfEvents "h" 0
        [⟨"transfer", [⟨"amount", .js "42"⟩, ⟨"denom", .js "atom"⟩]⟩] = .ok r1 ∧
      attrRowsOfEvents "h" 0
        [⟨"transfer", [⟨"denom", .js "atom"⟩, ⟨"amount", .js "42"⟩]⟩] = .ok r2 ∧
      ([(⟨"transfer", [⟨"amount", .js "42"⟩, ⟨"denom", .js "atom"⟩]⟩ : Event)] ≠
        [⟨"transfer", [⟨"denom", .js "atom"⟩, ⟨"amount", .js "42"⟩]⟩]) ∧
      r1 ≠ r2 ∧ (↑r1 : Multiset AttrRow) = ↑r2 := by
  refine ⟨[⟨"h", "transfer", 0, "amount", "42"⟩, ⟨"h", "transfer", 0, "denom", "atom"⟩],
    [⟨"h", "transfer", 0, "denom", "atom"⟩, ⟨"h", "transfer", 0, "amount", "42"⟩],
    rfl, rfl, by decide, by decide, by decide⟩

/-- C5 (amended): event order is reconstructible from the stored
ordinal — every attribute row's `event_index` locates its event, whose
type and attribute set the row matches; the attribute order within an
event carries no stored ordinal (see the counterexample) and is
preserved only as row insertion order. -/
theorem event_order_from_eventIndex (hash : String) (events : List Event)
    (rows : List AttrRow) (h : attrRowsOfEvents hash 0 events = .ok rows) :
    ∀ r ∈ rows, r.txHash = hash ∧ ∃ hk : r.eventIndex < events.length,
      r.eventType = (events.get ⟨r.eventIndex, hk⟩).type ∧
      ∃ attr ∈ (events.get ⟨r.eventIndex, hk⟩).attributes,
        r.name = attr.key ∧ jsonMarshal attr.value = .ok r.value := by
  intro r hr
  obtain ⟨hh, k, hk, hi, ht, attr, ha, hn, hv⟩ :=
    attrRowsOfEvents_mem hash events 0 rows h r hr
  have hik : r.eventIndex = k := by omega
  subst hik
  exact ⟨hh, hk, ht, attr, ha, hn, hv⟩

/-- Witness for the amended C5 at a concrete two-event transaction. -/
theorem event_order_from_eventIndex_witness :
    (⟨"h", "t1", 1, "k1", "v1"⟩ : AttrRow).txHash = "h" ∧
    ∃ hk : (⟨"h", "t1", 1, "k1", "v1"⟩ : AttrRow).eventIndex <
        ([⟨"t0", [⟨"k0", .js "v0"⟩]⟩, ⟨"t1", [⟨"k1", .js "v1"⟩]⟩] : List Event).length,
      (⟨"h", "t1", 1, "k1", "v1"⟩ : AttrRow).eventType =
        (([⟨"t0", [⟨"k0", .js "v0"⟩]⟩, ⟨"t1", [⟨"k1", .js "v1"⟩]⟩] : List Event).get
          ⟨(⟨"h", "t1", 1, "k1", "v1"⟩ : AttrRow).eventIndex, hk⟩).type ∧
      ∃ attr ∈ (([⟨"t0", [⟨"k0", .js "v0"⟩]⟩,
          ⟨"t1", [⟨"k1", .js "v1"⟩]⟩] : List Event).get
          ⟨(⟨"h", "t1", 1, "k1", "v1"⟩ : AttrRow).eventIndex, hk⟩).attributes,
        (⟨"h", "t1", 1, "k1", "v1"⟩ : AttrRow).name = attr.key ∧
        jsonMarshal attr.value = .ok (⟨"h", "t1", 1, "k1", "v1"⟩ : AttrRow).value :=
  event_order_from_eventIndex "h" [⟨"t0", [⟨"k0", .js "v0"⟩]⟩, ⟨"t1", [⟨"k1", .js "v1"⟩]⟩]
    [⟨"h", "t0", 0, "k0", "v0"⟩, ⟨"h", "t1", 1, "k1", "v1"⟩] rfl
    ⟨"h", "t1", 1, "k1", "v1"⟩ (by decide)

/-- C9: the `created_at` of every saved transaction row is the
adapter's own clock reading, captured exactly once per record (the k-th
record gets the k-th reading after `clock0`), in particular independent
of every caller-supplied field: any batch of the same length yields the
same `created_at` column. -/
theorem save_createdAt_adapter_clock (ora : SqlOracle)
    (dec : TX → Except String (List Event)) (now : Nat → Int) (db : DBState)
    (txs : List TX) (clock0 : Nat) (db2 : DBState)
    (h : save ora dec now db txs clock0 = .ok db2) :
    db2.txRows = db.txRows ++ txRowsOf now clock0 txs ∧
    (∀ k (hk : k < (txRowsOf now clock0 txs).length),
      ((txRowsOf now clock0 txs).get ⟨k, hk⟩).createdAt = now (clock0 + k)) ∧
    (∀ txs2 : List TX, txs2.length = txs.length →
      (txRowsOf now clock0 txs2).map TxRow.createdAt =
        (txRowsOf now clock0 txs).map TxRow.createdAt) := by
  obtain ⟨_, _, _, _, arows, harows, htx, hattr⟩ :=
    save_ok ora dec now db txs clock0 db2 h
  exact ⟨htx, fun k hk => txRowsOf_get_createdAt now txs clock0 k hk,
    fun txs2 hlen => txRowsOf_createdAt_indep now txs2 txs clock0 hlen⟩

/-- Witness for C9 at a concrete one-transaction batch. -/
theorem save_createdAt_adapter_clock_witness :
    (⟨[⟨"abc", 0, 100, 7, 1000⟩],
      [⟨"abc", "transfer", 0, "amount", "42"⟩]⟩ : DBState).txRows =
      (⟨[], []⟩ : DBState).txRows ++ txRowsOf exNow 0 [exTX] :=
  (save_createdAt_adapter_clock okOracle exDec exNow ⟨[], []⟩ [exTX] 0
    ⟨[⟨"abc", 0, 100, 7, 1000⟩], [⟨"abc", "transfer", 0, "amount", "42"⟩]⟩ rfl).1

/-- C10: `Save` with an empty batch leaves the visible rows unchanged
whatever happens, and succeeds (returning the unchanged state) whenever
beginning, the two prepares and the commit succeed — no transaction or
attribute row is added or modified. -/
theorem save_empty_batch (ora : SqlOracle) (dec : TX → Except String (List Event))
    (now : Nat → Int) (db : DBState) (clock0 : Nat) :
    saveVisible ora dec now db [] clock0 = db ∧
    (ora.beginFails = false → ora.prepareTxFails = false →
      ora.prepareAttrFails = false → ora.commitFails = false →
      save ora dec now db [] clock0 = .ok db) := by
  constructor
  · unfold saveVisible
    cases hs : save ora dec now db [] clock0 with
    | error e => rfl
    | ok db2 =>
      obtain ⟨_, _, _, _, arows, harows, htx, hattr⟩ :=
        save_ok ora dec now db [] clock0 db2 hs
      simp only [attrRowsOfBatch] at harows
      injection harows with h2
      subst h2
      have h3 : db2.txRows = db.txRows := by simpa [txRowsOf] using htx
      have h4 : db2.attrRows = db.attrRows := by simpa using hattr
      cases db2 with
      | mk t2 a2 =>
        cases db with
        | mk t a =>
          simp only at h3 h4
          rw [h3, h4]
  · intro h1 h2 h3 h4
    unfold save
    rw [if_neg (by simp [h1] : ¬ ora.beginFails = true)]
    rw [if_neg (by simp [h2] : ¬ ora.prepareTxFails = true)]
    rw [if_neg (by simp [h3] : ¬ ora.prepareAttrFails = true)]
    rw [show saveTxs ora dec now [] ⟨⟨[], []⟩, 0, 0, clock0⟩ =
      .ok ⟨⟨[], []⟩, 0, 0, clock0⟩ from rfl]
    dsimp only
    rw [if_neg (by simp [h4] : ¬ ora.commitFails = true)]
    cases db with
    | mk t a => simp

/-- Witness for C10 on an empty batch over a non-empty store. -/
theorem save_empty_batch_witness :
    saveVisible okOracle exDec exNow ⟨[⟨"x", 0, 1, 2, 3⟩], []⟩ [] 5 =
      ⟨[⟨"x", 0, 1, 2, 3⟩], []⟩ ∧
    save okOracle exDec exNow ⟨[⟨"x", 0, 1, 2, 3⟩], []⟩ [] 5 =
      .ok ⟨[⟨"x", 0, 1, 2, 3⟩], []⟩ :=
  ⟨(save_empty_batch okOracle exDec exNow ⟨[⟨"x", 0, 1, 2, 3⟩], []⟩ 5).1,
   (save_empty_batch okOracle exDec exNow ⟨[⟨"x", 0, 1, 2, 3⟩], []⟩ 5).2 rfl rfl rfl rfl⟩

/-- C6: the built connection target handles credentials in exactly
three cases: no user set — no credential segment at all, whatever the
password (the right-hand side does not mention the password); user set
with empty password — exactly the (escaped) username before the `@`;
user and password both set — username, `:`, password before the `@`. -/
theorem credential_three_cases (a : AdapterCfg) :
    (a.user = "" → createPostgresURI a =
      "postgres://" ++ strOfCodes (hostPart a ++ pathPartB a ++ queryPartB a)) ∧
    (a.user ≠ "" → a.password = "" → createPostgresURI a =
      "postgres://" ++ goEscape .userPassword a.user ++ "@" ++
        strOfCodes (hostPart a ++ pathPartB a ++ queryPartB a)) ∧
    (a.user ≠ "" → a.password ≠ "" → createPostgresURI a =
      "postgres://" ++ goEscape .userPassword a.user ++ ":" ++
        goEscape .userPassword a.password ++ "@" ++
        strOfCodes (hostPart a ++ pathPartB a ++ queryPartB a)) := by
  refine ⟨?_, ?_, ?_⟩
  · intro hu
    unfold createPostgresURI
    rw [uri_no_user a hu]
    rw [show ("postgres://" : String) =
      strOfCodes (strBytes adapterType ++ [58, 47, 47]) from rfl]
    simp only [← strOfCodes_append, List.append_assoc]
  · intro hu hp
    unfold createPostgresURI goEscape
    rw [uri_user_only a hu hp]
    rw [show ("postgres://" : String) =
      strOfCodes (strBytes adapterType ++ [58, 47, 47]) from rfl]
    rw [show ("@" : String) = strOfCodes [64] from rfl]
    simp only [← strOfCodes_append, List.append_assoc]
  · intro hu hp
    unfold createPostgresURI goEscape
    rw [uri_user_password a hu hp]
    rw [show ("postgres://" : String) =
      strOfCodes (strBytes adapterType ++ [58, 47, 47]) from rfl]
    rw [show ("@" : String) = strOfCodes [64] from rfl]
    rw [show (":" : String) = strOfCodes [58] from rfl]
    simp only [← strOfCodes_append, List.append_assoc]

/-- Witness for C6: the no-user case (with a password set, which is
ignored) and the user-and-password case, at concrete configurations. -/
theorem credential_three_cases_witness :
    createPostgresURI (newAdapter "d" [.withPassword "ignored"]) =
      "postgres://" ++ strOfCodes
        (hostPart (newAdapter "d" [.withPassword "ignored"]) ++
         pathPartB (newAdapter "d" [.withPassword "ignored"]) ++
         queryPartB (newAdapter "d" [.withPassword "ignored"])) ∧
    createPostgresURI (newAdapter "d" [.withUser "bob", .withPassword "pw"]) =
      "postgres://" ++ goEscape .userPassword "bob" ++ ":" ++
        goEscape .userPassword "pw" ++ "@" ++
        strOfCodes (hostPart (newAdapter "d" [.withUser "bob", .withPassword "pw"]) ++
          pathPartB (newAdapter "d" [.withUser "bob", .withPassword "pw"]) ++
          queryPartB (newAdapter "d" [.withUser "bob", .withPassword "pw"])) :=
  ⟨(credential_three_cases (newAdapter "d" [.withPassword "ignored"])).1 rfl,
   (credential_three_cases (newAdapter "d" [.withUser "bob", .withPassword "pw"])).2.2
     (by decide) (by decide)⟩

/-- C7: with a non-empty parameter mapping the connection target has
exactly one query segment — the bytes after the unique `?` are the
encoded mapping — and decoding that segment yields exactly the
mapping's key/value pairs (as a permutation, the mapping being
unordered); with an empty or absent mapping the target contains no `?`
at all. -/
theorem query_roundtrip (a : AdapterCfg) :
    (∀ ps, a.params = some ps → ps ≠ [] →
      (∃ pre, createPostgresURIBytes a = pre ++ 63 :: valuesEncode ps ∧
        63 ∉ pre ∧ 63 ∉ valuesEncode ps) ∧
      ∃ l, parseQueryGo (valuesEncode ps) = some l ∧ l.Perm ps) ∧
    ((a.params = none ∨ a.params = some []) → 63 ∉ createPostgresURIBytes a) := by
  constructor
  · intro ps hps hne
    constructor
    · obtain ⟨pre, heq, hpre⟩ := uri_split_query a
      have hq : queryPartB a = 63 :: valuesEncode ps := by
        unfold queryPartB rawQueryOf
        rw [hps]
        rw [if_pos (valuesEncode_ne_nil ps hne)]
      refine ⟨pre, ?_, hpre, qmark_not_mem_valuesEncode ps⟩
      rw [heq, hq]
    · exact ⟨sortBy keyLe ps, parseQueryGo_valuesEncode ps, sortBy_perm keyLe ps⟩
  · intro hcase
    obtain ⟨pre, heq, hpre⟩ := uri_split_query a
    have hq : queryPartB a = [] := by
      unfold queryPartB rawQueryOf
      rcases hcase with h | h <;> rw [h]
      · simp
      · dsimp only
        rw [show valuesEncode [] = [] from rfl]
        simp
    rw [heq, hq, List.append_nil]
    exact hpre

/-- Witness for C7 at a concrete two-entry mapping and at the
empty-mapping and nil-map cases. -/
theorem query_roundtrip_witness :
    ((∃ pre, createPostgresURIBytes (newAdapter "d" [.withParams [("b", "2"), ("a", "1")]]) =
        pre ++ 63 :: valuesEncode [("b", "2"), ("a", "1")] ∧
        63 ∉ pre ∧ 63 ∉ valuesEncode [("b", "2"), ("a", "1")]) ∧
      ∃ l, parseQueryGo (valuesEncode [("b", "2"), ("a", "1")]) = some l ∧
        l.Perm [("b", "2"), ("a", "1")]) ∧
    63 ∉ createPostgresURIBytes (newAdapter "d" []) ∧
    63 ∉ createPostgresURIBytes (newAdapter "d" [.withParams []]) :=
  ⟨(query_roundtrip (newAdapter "d" [.withParams [("b", "2"), ("a", "1")]])).1
      [("b", "2"), ("a", "1")] rfl (by simp),
   (query_roundtrip (newAdapter "d" [])).2 (Or.inl rfl),
   (query_roundtrip (newAdapter "d" [.withParams []])).2 (Or.inr rfl)⟩

/-- C8: `NewAdapter` starts from the defaults `127.0.0.1:5432` (so both
may be omitted) and applies the option callbacks in order, so for each
of the five fields the last option targeting it wins. -/
theorem newAdapter_defaults_and_option_order (database : String) :
    (newAdapter database []).host = defaultHost ∧
    (newAdapter database []).port = defaultPort ∧
    defaultHost = "127.0.0.1" ∧ defaultPort = 5432 ∧
    (∀ (opts1 opts2 : List AdapterOption) (h : String),
      (∀ o ∈ opts2, isWithHost o = false) →
      (newAdapter database (opts1 ++ .withHost h :: opts2)).host = h) ∧
    (∀ (opts1 opts2 : List AdapterOption) (p : Nat),
      (∀ o ∈ opts2, isWithPort o = false) →
      (newAdapter database (opts1 ++ .withPort p :: opts2)).port = p) ∧
    (∀ (opts1 opts2 : List AdapterOption) (u : String),
      (∀ o ∈ opts2, isWithUser o = false) →
      (newAdapter database (opts1 ++ .withUser u :: opts2)).user = u) ∧
    (∀ (opts1 opts2 : List AdapterOption) (pw : String),
      (∀ o ∈ opts2, isWithPassword o = false) →
      (newAdapter database (opts1 ++ .withPassword pw :: opts2)).password = pw) ∧
    (∀ (opts1 opts2 : List AdapterOption) (ps : List (String × String)),
      (∀ o ∈ opts2, isWithParams o = false) →
      (newAdapter database (opts1 ++ .withParams ps :: opts2)).params = some ps) := by
  refine ⟨rfl, rfl, rfl, rfl, ?_, ?_, ?_, ?_, ?_⟩
  · intro opts1 opts2 h hall
    unfold newAdapter
    rw [List.foldl_append, List.foldl_cons]
    rw [foldl_applyOption_preserve AdapterCfg.host isWithHost
      applyOption_host_of_not opts2 _ hall]
    rfl
  · intro opts1 opts2 p hall
    unfold newAdapter
    rw [List.foldl_append, List.foldl_cons]
    rw [foldl_applyOption_preserve AdapterCfg.port isWithPort
      applyOption_port_of_not opts2 _ hall]
    rfl
  · intro opts1 opts2 u hall
    unfold newAdapter
    rw [List.foldl_append, List.foldl_cons]
    rw [foldl_applyOption_preserve AdapterCfg.user isWithUser
      applyOption_user_of_not opts2 _ hall]
    rfl
  · intro opts1 opts2 pw hall
    unfold newAdapter
    rw [List.foldl_append, List.foldl_cons]
    rw [foldl_applyOption_preserve AdapterCfg.password isWithPassword
      applyOption_password_of_not opts2 _ hall]
    rfl
  · intro opts1 opts2 ps hall
    unfold newAdapter
    rw [List.foldl_append, List.foldl_cons]
    rw [foldl_applyOption_preserve AdapterCfg.params isWithParams
      applyOption_params_of_not opts2 _ hall]
    rfl

/-- Witness for C8: the later of two host options wins. -/
theorem newAdapter_defaults_and_option_order_witness :
    (newAdapter "chain" ([.withHost "x"] ++ .withHost "y" :: [.withPort 9])).host = "y" :=
  (newAdapter_defaults_and_option_order "chain").2.2.2.2.1
    [.withHost "x"] [.withPort 9] "y" (by decide)
